import Mathlib

/-!
Shallow embedding of the Miller-Rabin primality tester `src/isPrime.js`
(Naviary2/Primality-Test).  JavaScript BigInt values are modelled by `Nat`
where the source only handles non-negative values, and by `Int` where the
sign matters (the public input, validated bases, and the one intermediate
quantity in `montgomeryMul` that can go negative before it is folded back
into range).  BigInt `>>` on a possibly-negative value is arithmetic shift,
i.e. floor division by a power of two, modelled with `Int.fdiv`.  Exceptions
are modelled with `Except PError`; the `Promise` wrapper of the source is an
artifact of the host environment and is dropped (resolve = `Except.ok`,
reject = `Except.error`).

The only impure ingredient of the source, `getRandomBitString`, feeds a
rejection loop that redraws a random value until it lands in `[2, n-2]`.
That loop is modelled by an oracle `randomBases : Nat -> Nat` giving the
accepted draw of each round; theorems about random rounds carry the loop
exit condition `2 <= randomBases k < n - 1` as a hypothesis.
-/

/-- Error taxonomy of the source: `Error("base must be odd")` thrown by
`getReductionContext` is `invalidModulus`; the `RangeError` thrown by
`validateBases` is `invalidBaseRange` carrying the offending base.  The
`TypeError` for a non-array `bases` option cannot arise in this embedding
because the `bases` option is typed as `Option (List Int)`. -/
inductive PError where
  | invalidModulus : PError
  | invalidBaseRange (b : Int) : PError
deriving DecidableEq, Repr

/-- js: `bitLength(n) = n.toString(2).length`.  For `n = 0` the string is
"0", of length 1; for positive `n` the string has `log2 n + 1` binary
digits. -/
def bitLength (n : Nat) : Nat :=
  if n = 0 then 1 else Nat.log2 n + 1

/-- js: `twoMultiplicity(n)`: 0 for `n = 0`, otherwise the index of the
least significant set bit of `n` (the source scans bits upward from bit 0
until it finds a set one; counting factors of two by halving computes the
same index). -/
def twoMultiplicity (n : Nat) : Nat :=
  if n = 0 then 0
  else if n % 2 = 1 then 0
  else twoMultiplicity (n / 2) + 1
decreasing_by exact Nat.div_lt_self (Nat.pos_of_ne_zero (by omega)) (by omega)

/-- js: `invertPowerOfTwo(exp, base)`: start from 1 and repeat `exp` times:
add `base` if the value is odd, then halve (Penk rshift inversion,
restricted to odd `base`). -/
def invertPowerOfTwo : Nat → Nat → Nat
  | 0, _ => 1
  | exp + 1, base =>
      let inv := invertPowerOfTwo exp base
      (if inv % 2 = 1 then inv + base else inv) / 2

/-- js: the `MontgomeryReductionContext` record `{base, shift, r, rInv, baseInv}`
built by `getReductionContext`. -/
structure MontgomeryReductionContext where
  base : Nat
  shift : Nat
  r : Nat
  rInv : Nat
  baseInv : Nat
deriving DecidableEq, Repr

/-- js: `getReductionContext(base)`: throws when `base` is even, otherwise
computes `r = 2 ^ bitLength(base)`, the inverse `rInv` of `r` mod `base`,
and `baseInv = r - (((rInv*r - 1) / base) % r)` (exact division: `base`
divides `rInv*r - 1`). -/
def getReductionContext (base : Nat) : Except PError MontgomeryReductionContext :=
  if base &&& 1 = 0 then .error .invalidModulus
  else
    let numBits := bitLength base
    let littleShift := numBits
    let shift := littleShift
    let r := 1 <<< shift
    let rInv := invertPowerOfTwo littleShift base
    let baseInv := r - (rInv * r - 1) / base % r
    .ok ⟨base, shift, r, rInv, baseInv⟩

/-- js: `montgomeryReduce(n, ctx) = (n << ctx.shift) % ctx.base`. -/
def montgomeryReduce (n : Nat) (ctx : MontgomeryReductionContext) : Nat :=
  (n <<< ctx.shift) % ctx.base

/-- js: `invMontgomeryReduce(n, ctx) = (n * ctx.rInv) % ctx.base`. -/
def invMontgomeryReduce (n : Nat) (ctx : MontgomeryReductionContext) : Nat :=
  n * ctx.rInv % ctx.base

/-- The value `(unredProduct - t) >> ctx.shift` computed inside
`montgomeryMul` before the final conditional fold into `[0, base)`.  It can
be negative, and BigInt `>>` is arithmetic shift, hence `Int.fdiv` by
`2 ^ shift`. -/
def montgomeryMulProduct (a b : Nat) (ctx : MontgomeryReductionContext) : Int :=
  let rm1 := ctx.r - 1
  let unredProduct := a * b
  let t := (((unredProduct &&& rm1) * ctx.baseInv) &&& rm1) * ctx.base
  Int.fdiv ((unredProduct : Int) - (t : Int)) ((2 : Int) ^ ctx.shift)

/-- js: `montgomeryMul(a, b, ctx)`: zero shortcut, then the Montgomery
product folded back into range with one conditional subtract or add of
`base`. -/
def montgomeryMul (a b : Nat) (ctx : MontgomeryReductionContext) : Nat :=
  if a = 0 ∨ b = 0 then 0
  else
    let product := montgomeryMulProduct a b ctx
    (if (ctx.base : Int) ≤ product then product - ctx.base
     else if product < 0 then product + ctx.base
     else product).toNat

/-- js: `montgomerySqr(n, ctx) = montgomeryMul(n, n, ctx)`. -/
def montgomerySqr (n : Nat) (ctx : MontgomeryReductionContext) : Nat :=
  montgomeryMul n n ctx

/-- The square-and-multiply loop of `montgomeryPow`: `fuel` remaining
iterations, `i` the current bit index, `x` the running square chain,
`result` the accumulator.  The loop body multiplies `x` into `result`
whenever bit `i` of `exp` is set, and `x` is squared on every step. -/
def montgomeryPowAux (ctx : MontgomeryReductionContext) (exp fuel i x result : Nat) : Nat :=
  match fuel with
  | 0 => result
  | f + 1 =>
      montgomeryPowAux ctx exp f (i + 1) (montgomerySqr x ctx)
        (if exp &&& (1 <<< i) ≠ 0 then montgomeryMul result x ctx else result)

/-- js: `montgomeryPow(n, exp, ctx)`: exponentiation by squaring over the
`bitLength exp` low bits of `exp`, starting from the Montgomery form
of 1. -/
def montgomeryPow (n exp : Nat) (ctx : MontgomeryReductionContext) : Nat :=
  montgomeryPowAux ctx exp (bitLength exp) 0 n (montgomeryReduce 1 ctx)

/-- js: the result record of `primalityTest` (`PrimalityResult`). -/
structure PrimalityResult where
  n : Int
  probablePrime : Bool
  witness : Option Nat
  divisor : Option Nat
deriving DecidableEq, Repr

/-- The shared-factors-of-two counter of `ugcd`: how many times the head
loop `while (!((a & 1) | (b & 1)))` halves both arguments.  The js loop
would diverge on `a = b = 0`, which `ugcd` rules out before reaching it;
the guard `a ≠ 0 ∨ b ≠ 0` totalises that unreachable case. -/
def sharedTwoFactors (a b : Nat) : Nat :=
  if a % 2 = 0 ∧ b % 2 = 0 ∧ (a ≠ 0 ∨ b ≠ 0) then sharedTwoFactors (a / 2) (b / 2) + 1
  else 0
termination_by a + b
decreasing_by omega

/-- The odd part of `a`: js `while (!(a & 1)) a >>= 1`.  The js loop would
diverge on 0, which is unreachable inside `ugcd`; totalised as 0. -/
def oddPart (a : Nat) : Nat :=
  if a = 0 then 0
  else if a % 2 = 0 then oddPart (a / 2)
  else a
decreasing_by exact Nat.div_lt_self (Nat.pos_of_ne_zero (by omega)) (by omega)

theorem oddPart_le (a : Nat) : oddPart a ≤ a := by
  induction a using oddPart.induct with
  | case1 => simp [oddPart]
  | case2 a h1 h2 ih =>
      rw [oddPart]
      simp only [h1, h2, if_false, if_true, if_neg, if_pos]
      omega
  | case3 a h1 h2 =>
      rw [oddPart]
      simp [h1, h2]

/-- The main loop of `ugcd`: while `a ≠ b` and `b > 1`, strip remaining
factors of two from both, keep the larger in `a` (swapping if needed, or
breaking out when equal), and subtract. -/
def gcdOddLoop (a b : Nat) : Nat :=
  if a ≠ b ∧ 1 < b then
    let stripA := oddPart a
    let stripB := oddPart b
    if stripB > stripA then gcdOddLoop (stripB - stripA) stripA
    else if stripA = stripB then stripB
    else gcdOddLoop (stripA - stripB) stripB
  else b
termination_by a + b + 1 - min 1 a
decreasing_by
  · have ha := oddPart_le a
    have hb := oddPart_le b
    omega
  · have ha := oddPart_le a
    have hb := oddPart_le b
    omega

/-- js: `ugcd(a, b)`: binary gcd with early returns for `a = b`, `a = 0`,
`b = 0`, shared factors of two stripped first and re-applied at the end. -/
def ugcd (a b : Nat) : Nat :=
  if a = b then a
  else if a = 0 then b
  else if b = 0 then a
  else
    let s := sharedTwoFactors a b
    gcdOddLoop (a >>> s) (b >>> s) <<< s

/-- The element loop of js `validateBases`: `bases.map(...)` runs its
callback left to right and the first `RangeError` thrown propagates;
modelled as a recursion over the list that stops at the first base outside
`[2, nSub)`. -/
def validateBasesList (nSub : Int) : List Int → Except PError (List Int)
  | [] => .ok []
  | b :: rest =>
      if 2 ≤ b ∧ b < nSub then
        match validateBasesList nSub rest with
        | .ok l => .ok (b :: l)
        | .error e => .error e
      else .error (.invalidBaseRange b)

/-- js: `validateBases(bases, nSub)`: `null` passes through; otherwise every
base must satisfy `2 <= b < nSub`, else a `RangeError` carrying the first
offending base is thrown. -/
def validateBases (bases : Option (List Int)) (nSub : Int) :
    Except PError (Option (List Int)) :=
  match bases with
  | none => Except.ok none
  | some bs => (validateBasesList nSub bs).map some

/-- js: the deterministic base table used by `small_determinism_mode` for
`n < 341550071728321`. -/
def smallDeterminismBases (n : Nat) : List Int :=
  if n < 2047 then [2]
  else if n < 1373653 then [2, 3]
  else if n < 25326001 then [2, 3, 5]
  else if n < 3215031751 then [2, 3, 5, 7]
  else if n < 2152302898747 then [2, 3, 5, 7, 11]
  else if n < 3474749660383 then [2, 3, 5, 7, 11, 13]
  else [2, 3, 5, 7, 11, 13, 17]

/-- js: `getAdaptiveNumRounds(inputBits)`. -/
def getAdaptiveNumRounds (inputBits : Nat) : Nat :=
  if inputBits > 1000 then 2
  else if inputBits > 500 then 3
  else if inputBits > 250 then 4
  else if inputBits > 150 then 5
  else 6

/-- Outcome of one Miller-Rabin round: the base passes (`continue` in the
source), or it fails, recording the witness and the divisor (if any) and
terminating the whole test (`break outer`). -/
inductive RoundOutcome where
  | pass : RoundOutcome
  | fail (witness : Nat) (divisor : Option Nat) : RoundOutcome
deriving DecidableEq, Repr

/-- js: the divisor derivation at a failing base:
`divisor = ugcd(invMontgomeryReduce(x, ctx) - 1, n); if (divisor === 1)
divisor = null`, guarded by `findDivisor`.  At every reachable call the
residue `invMontgomeryReduce x ctx` is at least 2 (proved below), so the
BigInt subtraction agrees with the Nat subtraction used here. -/
def mrDivisor (x n : Nat) (ctx : MontgomeryReductionContext) (findDivisor : Bool) :
    Option Nat :=
  if findDivisor then
    let dv := ugcd (invMontgomeryReduce x ctx - 1) n
    if dv = 1 then none else some dv
  else none

/-- js: the inner squaring loop `for (i = 0; i < r; i++)` of a round,
including the `i === r` strong-witness failure after it: `fuel` is `r - i`.
When the square hits Montgomery 1 the base is a witness (`break outer`);
when it hits Montgomery `n-1` the base passes; running out of fuel is the
`i === r` witness case, applied to the last square `x`. -/
def mrInnerLoop (n : Nat) (ctx : MontgomeryReductionContext)
    (oneReduced nSubReduced : Nat) (findDivisor : Bool) (base x fuel : Nat) :
    RoundOutcome :=
  match fuel with
  | 0 => .fail base (mrDivisor x n ctx findDivisor)
  | f + 1 =>
      let y := montgomerySqr x ctx
      if y = oneReduced then .fail base (mrDivisor x n ctx findDivisor)
      else if y = nSubReduced then .pass
      else mrInnerLoop n ctx oneReduced nSubReduced findDivisor base y f

/-- js: one iteration of the `outer:` loop for a fixed base: the
`findDivisor` gcd shortcut, then `x = montgomeryPow(reduce(base), d)`, the
plus-or-minus-one early pass, and the inner squaring loop. -/
def millerRabinRound (n : Nat) (ctx : MontgomeryReductionContext)
    (oneReduced nSubReduced r d : Nat) (findDivisor : Bool) (base : Nat) :
    RoundOutcome :=
  if findDivisor ∧ ugcd n base ≠ 1 then .fail base (some (ugcd n base))
  else
    let baseReduced := montgomeryReduce base ctx
    let x := montgomeryPow baseReduced d ctx
    if x = oneReduced ∨ x = nSubReduced then .pass
    else mrInnerLoop n ctx oneReduced nSubReduced findDivisor base x r

/-- Execution-order markers emitted by the embedding, used to express the
ordering claims of the spec (what ran before a validation failure). -/
inductive TraceEvent where
  | contextCreated : TraceEvent
  | montgomeryReduced (value : Nat) : TraceEvent
  | roundFinished (base : Nat) : TraceEvent
deriving DecidableEq, Repr

/-- The per-round state of `primalityTest` (`probablePrime`, `witness`,
`divisor`), before the sign-carrying `n` field is attached. -/
structure CoreResult where
  probablePrime : Bool
  witness : Option Nat
  divisor : Option Nat
deriving DecidableEq, Repr

/-- js: the `outer:` round loop over the list of bases to test, emitting a
trace event per executed round.  An empty list leaves the initial state
`probablePrime = true`, `witness = divisor = null`. -/
def runRounds (n : Nat) (ctx : MontgomeryReductionContext)
    (oneReduced nSubReduced r d : Nat) (findDivisor : Bool) :
    List Nat → List TraceEvent × CoreResult
  | [] => ([], ⟨true, none, none⟩)
  | base :: rest =>
      match millerRabinRound n ctx oneReduced nSubReduced r d findDivisor base with
      | .pass =>
          let next := runRounds n ctx oneReduced nSubReduced r d findDivisor rest
          (.roundFinished base :: next.1, next.2)
      | .fail w dv => ([.roundFinished base], ⟨false, some w, dv⟩)

/-- js: the options record of `primalityTest` with its default values. -/
structure PrimalityOptions where
  numRounds : Option Nat
  bases : Option (List Int)
  findDivisor : Bool
  small_determinism_mode : Bool
deriving DecidableEq, Repr

/-- The body of js `primalityTest` after the input has been made
non-negative: special cases, the deterministic-mode base override, the
decomposition `n - 1 = d * 2^r`, Montgomery context construction, base
validation, round-count selection, and the round loop — in source order,
which the returned trace records. -/
def primalityTestCore (n : Nat) (opts : PrimalityOptions) (randomBases : Nat → Nat) :
    List TraceEvent × Except PError CoreResult :=
  if n < 2 then ([], .ok ⟨false, none, none⟩)
  else if n < 4 then ([], .ok ⟨true, none, none⟩)
  else if n % 2 = 0 then ([], .ok ⟨false, none, some 2⟩)
  else
    let bases :=
      if opts.small_determinism_mode ∧ n < 341550071728321 then
        some (smallDeterminismBases n)
      else opts.bases
    let nBits := bitLength n
    let nSub := n - 1
    let r := twoMultiplicity nSub
    let d := nSub >>> r
    match getReductionContext n with
    | .error e => ([], .error e)
    | .ok ctx =>
        let oneReduced := montgomeryReduce 1 ctx
        let nSubReduced := montgomeryReduce nSub ctx
        let preEvents : List TraceEvent :=
          [.contextCreated, .montgomeryReduced oneReduced, .montgomeryReduced nSubReduced]
        match validateBases bases (nSub : Int) with
        | .error e => (preEvents, .error e)
        | .ok validBases =>
            let numRounds :=
              match validBases with
              | some vb => vb.length
              | none =>
                  match opts.numRounds with
                  | some k => if k < 1 then getAdaptiveNumRounds nBits else k
                  | none => getAdaptiveNumRounds nBits
            let baseList : List Nat :=
              match validBases with
              | some vb => vb.map Int.toNat
              | none => (List.range numRounds).map randomBases
            let rounds := runRounds n ctx oneReduced nSubReduced r d opts.findDivisor baseList
            (preEvents ++ rounds.1, .ok rounds.2)

/-- js: `primalityTest(n, options)`: record the sign (0 counts as
positive), run on `|n|`, and re-apply the sign to the `n` field of the
result.  The pair also returns the trace of execution-order events. -/
def primalityTestWithTrace (nIn : Int) (opts : PrimalityOptions)
    (randomBases : Nat → Nat) : List TraceEvent × Except PError PrimalityResult :=
  let sign : Int := if nIn < 0 then -1 else 1
  let n : Nat := nIn.natAbs
  let core := primalityTestCore n opts randomBases
  (core.1, core.2.map fun c => PrimalityResult.mk (sign * n) c.probablePrime c.witness c.divisor)

/-- The result of js `primalityTest` (the resolved/rejected value, without
the trace). -/
def primalityTest (nIn : Int) (opts : PrimalityOptions) (randomBases : Nat → Nat) :
    Except PError PrimalityResult :=
  (primalityTestWithTrace nIn opts randomBases).2

/-- The `probablePrime` verdict of a test outcome, `none` when the test
failed with an exception. -/
def verdictOf (e : Except PError PrimalityResult) : Option Bool :=
  match e with
  | .ok res => some res.probablePrime
  | .error _ => none

/-- The `n` field of a test outcome, `none` when the test failed. -/
def nFieldOf (e : Except PError PrimalityResult) : Option Int :=
  match e with
  | .ok res => some res.n
  | .error _ => none

/-- Whether a test outcome is the `InvalidModulus` failure ("base must be
odd"). -/
def isInvalidModulusFailure (e : Except PError PrimalityResult) : Bool :=
  match e with
  | .error .invalidModulus => true
  | _ => false


/-! ## Facts about bitLength -/

theorem lt_two_pow_bitLength (n : Nat) : n < 2 ^ bitLength n := by
  unfold bitLength
  split
  · omega
  · exact Nat.lt_log2_self

theorem two_pow_bitLength_pred_le (n : Nat) (hn : n ≠ 0) : 2 ^ (bitLength n - 1) ≤ n := by
  unfold bitLength
  rw [if_neg hn]
  simpa using Nat.log2_self_le hn

theorem bitLength_pos (n : Nat) : 0 < bitLength n := by
  unfold bitLength
  split <;> omega

/-! ## Correctness of the binary gcd -/

theorem oddPart_emod_two (a : Nat) (ha : a ≠ 0) : oddPart a % 2 = 1 := by
  induction a using oddPart.induct with
  | case1 => omega
  | case2 a h1 h2 ih =>
      rw [oddPart, if_neg h1, if_pos h2]
      exact ih (by omega)
  | case3 a h1 h2 =>
      rw [oddPart, if_neg h1, if_neg h2]
      omega

theorem oddPart_pos (a : Nat) (ha : a ≠ 0) : 0 < oddPart a := by
  induction a using oddPart.induct with
  | case1 => omega
  | case2 a h1 h2 ih =>
      rw [oddPart, if_neg h1, if_pos h2]
      exact ih (by omega)
  | case3 a h1 h2 =>
      rw [oddPart, if_neg h1, if_neg h2]
      omega

theorem oddPart_of_odd (a : Nat) (ha : a % 2 = 1) : oddPart a = a := by
  rw [oddPart]
  rw [if_neg (by omega), if_neg (by omega)]

theorem gcd_oddPart_left (a b : Nat) (hb : b % 2 = 1) :
    Nat.gcd (oddPart a) b = Nat.gcd a b := by
  induction a using oddPart.induct with
  | case1 => rw [oddPart]; simp
  | case2 a h1 h2 ih =>
      rw [oddPart, if_neg h1, if_pos h2, ih]
      have ha2 : a = 2 * (a / 2) := by omega
      have hcop : Nat.Coprime 2 b := Nat.coprime_two_left.mpr (Nat.odd_iff.mpr hb)
      calc Nat.gcd (a / 2) b = Nat.gcd (2 * (a / 2)) b := (hcop.gcd_mul_left_cancel (a / 2)).symm
        _ = Nat.gcd a b := by rw [← ha2]
  | case3 a h1 h2 =>
      rw [oddPart, if_neg h1, if_neg h2]

theorem gcd_oddPart_right (a b : Nat) (ha : a % 2 = 1) :
    Nat.gcd a (oddPart b) = Nat.gcd a b := by
  rw [Nat.gcd_comm, gcd_oddPart_left _ _ ha, Nat.gcd_comm]

theorem gcd_oddPart_both (a b : Nat) (h : a % 2 = 1 ∨ b % 2 = 1) :
    Nat.gcd (oddPart a) (oddPart b) = Nat.gcd a b := by
  rcases h with h | h
  · rw [oddPart_of_odd a h]
    exact gcd_oddPart_right a b h
  · rw [oddPart_of_odd b h]
    exact gcd_oddPart_left a b h

theorem gcdOddLoop_eq_gcd (a b : Nat) (ha : 0 < a) (hb : 0 < b)
    (hodd : a % 2 = 1 ∨ b % 2 = 1) : gcdOddLoop a b = Nat.gcd a b := by
  induction a, b using gcdOddLoop.induct with
  | case1 a b hg stripA stripB hgt ih =>
      have hgt2 : oddPart b > oddPart a := hgt
      rw [gcdOddLoop, if_pos hg]
      rw [if_pos hgt2]
      have hA1 := oddPart_emod_two a (by omega)
      have hB1 := oddPart_emod_two b (by omega)
      have hApos := oddPart_pos a (by omega)
      have hBpos := oddPart_pos b (by omega)
      rw [ih (by omega) (by omega) (by omega)]
      rw [Nat.gcd_sub_self_left (le_of_lt hgt2), Nat.gcd_comm]
      exact gcd_oddPart_both a b hodd
  | case2 a b hg stripA stripB hgt heq =>
      have hgt2 : ¬ oddPart b > oddPart a := hgt
      have heq2 : oddPart a = oddPart b := heq
      rw [gcdOddLoop, if_pos hg]
      rw [if_neg hgt2, if_pos heq2]
      rw [← gcd_oddPart_both a b hodd, heq2, Nat.gcd_self]
  | case3 a b hg stripA stripB hgt heq ih =>
      have hgt2 : ¬ oddPart b > oddPart a := hgt
      have heq2 : ¬ oddPart a = oddPart b := heq
      rw [gcdOddLoop, if_pos hg]
      rw [if_neg hgt2, if_neg heq2]
      have hA1 := oddPart_emod_two a (by omega)
      have hB1 := oddPart_emod_two b (by omega)
      have hApos := oddPart_pos a (by omega)
      have hBpos := oddPart_pos b (by omega)
      rw [ih (by omega) (by omega) (by omega)]
      rw [Nat.gcd_sub_self_left (by omega)]
      exact gcd_oddPart_both a b hodd
  | case4 a b hg =>
      rw [gcdOddLoop, if_neg hg]
      have : a = b ∨ b = 1 := by omega
      rcases this with h | h
      · rw [h, Nat.gcd_self]
      · rw [h, Nat.gcd_one_right]

theorem sharedTwoFactors_dvd (a b : Nat) :
    2 ^ sharedTwoFactors a b ∣ a ∧ 2 ^ sharedTwoFactors a b ∣ b := by
  induction a, b using sharedTwoFactors.induct with
  | case1 a b hg ih =>
      rw [sharedTwoFactors, if_pos hg]
      set s2 := sharedTwoFactors (a / 2) (b / 2) with hs2
      obtain ⟨iha, ihb⟩ := ih
      obtain ⟨x, hx⟩ := iha
      obtain ⟨y, hy⟩ := ihb
      constructor
      · refine ⟨x, ?_⟩
        calc a = 2 * (a / 2) := by omega
          _ = 2 * (2 ^ s2 * x) := by rw [hx]
          _ = 2 ^ (s2 + 1) * x := by rw [pow_succ]; ring
      · refine ⟨y, ?_⟩
        calc b = 2 * (b / 2) := by omega
          _ = 2 * (2 ^ s2 * y) := by rw [hy]
          _ = 2 ^ (s2 + 1) * y := by rw [pow_succ]; ring
  | case2 a b hg =>
      rw [sharedTwoFactors, if_neg hg]
      simp

theorem sharedTwoFactors_not_both_even (a b : Nat) (h : a ≠ 0 ∨ b ≠ 0) :
    (a / 2 ^ sharedTwoFactors a b) % 2 = 1 ∨ (b / 2 ^ sharedTwoFactors a b) % 2 = 1 := by
  induction a, b using sharedTwoFactors.induct with
  | case1 a b hg ih =>
      rw [sharedTwoFactors, if_pos hg]
      have ih2 := ih (by omega)
      rw [pow_succ]
      have hda : a / (2 ^ sharedTwoFactors (a / 2) (b / 2) * 2)
          = a / 2 / 2 ^ sharedTwoFactors (a / 2) (b / 2) := by
        rw [Nat.mul_comm, Nat.div_div_eq_div_mul, Nat.mul_comm]
      have hdb : b / (2 ^ sharedTwoFactors (a / 2) (b / 2) * 2)
          = b / 2 / 2 ^ sharedTwoFactors (a / 2) (b / 2) := by
        rw [Nat.mul_comm, Nat.div_div_eq_div_mul, Nat.mul_comm]
      rw [hda, hdb]
      exact ih2
  | case2 a b hg =>
      rw [sharedTwoFactors, if_neg hg]
      simp only [pow_zero, Nat.div_one]
      omega

theorem ugcd_main_case (a b : Nat) (ha : a ≠ 0) (hb : b ≠ 0) :
    gcdOddLoop (a >>> sharedTwoFactors a b) (b >>> sharedTwoFactors a b)
      <<< sharedTwoFactors a b = Nat.gcd a b := by
  have hd := sharedTwoFactors_dvd a b
  have hne := sharedTwoFactors_not_both_even a b (Or.inl ha)
  set s := sharedTwoFactors a b with hs
  obtain ⟨x, hx⟩ := hd.1
  obtain ⟨y, hy⟩ := hd.2
  have hpow : 0 < 2 ^ s := Nat.pos_pow_of_pos s (by omega)
  have hxval : a >>> s = x := by
    rw [Nat.shiftRight_eq_div_pow, hx, Nat.mul_div_cancel_left _ hpow]
  have hyval : b >>> s = y := by
    rw [Nat.shiftRight_eq_div_pow, hy, Nat.mul_div_cancel_left _ hpow]
  have hxda : a / 2 ^ s = x := by rw [hx, Nat.mul_div_cancel_left _ hpow]
  have hydb : b / 2 ^ s = y := by rw [hy, Nat.mul_div_cancel_left _ hpow]
  rw [hxval, hyval]
  rw [gcdOddLoop_eq_gcd x y
    (by rcases Nat.eq_zero_or_pos x with h | h
        · exact absurd (by rw [hx, h, Nat.mul_zero]) ha
        · exact h)
    (by rcases Nat.eq_zero_or_pos y with h | h
        · exact absurd (by rw [hy, h, Nat.mul_zero]) hb
        · exact h)
    (by rw [← hxda, ← hydb]; exact hne)]
  rw [Nat.shiftLeft_eq, hx, hy, Nat.gcd_mul_left, Nat.mul_comm]

/-- C5 helper: the full binary gcd of the source agrees with the
mathematical gcd on all inputs. -/
theorem ugcd_eq_gcd (a b : Nat) : ugcd a b = Nat.gcd a b := by
  unfold ugcd
  by_cases hab : a = b
  · rw [if_pos hab, hab, Nat.gcd_self]
  · rw [if_neg hab]
    by_cases ha : a = 0
    · rw [if_pos ha, ha, Nat.gcd_zero_left]
    · rw [if_neg ha]
      by_cases hb : b = 0
      · rw [if_pos hb, hb, Nat.gcd_zero_right]
      · rw [if_neg hb]
        exact ugcd_main_case a b ha hb

/-! ## Facts about the Montgomery reduction context -/

theorem invertPowerOfTwo_ge_one (base : Nat) (hodd : base % 2 = 1) :
    ∀ e, 1 ≤ invertPowerOfTwo e base := by
  intro e
  induction e with
  | zero => simp [invertPowerOfTwo]
  | succ e ih =>
      rw [invertPowerOfTwo]
      split <;> omega

theorem invertPowerOfTwo_modeq (base : Nat) (hodd : base % 2 = 1) :
    ∀ e, 2 ^ e * invertPowerOfTwo e base ≡ 1 [MOD base] := by
  intro e
  induction e with
  | zero =>
      simp only [invertPowerOfTwo, pow_zero, Nat.mul_one]
      rfl
  | succ e ih =>
      rw [invertPowerOfTwo]
      set inv := invertPowerOfTwo e base with hinv
      have key : 2 * ((if inv % 2 = 1 then inv + base else inv) / 2)
          = inv + (if inv % 2 = 1 then base else 0) := by
        split <;> rename_i h
        · omega
        · omega
      calc 2 ^ (e + 1) * ((if inv % 2 = 1 then inv + base else inv) / 2)
          = 2 ^ e * (2 * ((if inv % 2 = 1 then inv + base else inv) / 2)) := by ring
        _ = 2 ^ e * (inv + (if inv % 2 = 1 then base else 0)) := by rw [key]
        _ = 2 ^ e * inv + 2 ^ e * (if inv % 2 = 1 then base else 0) := by ring
        _ ≡ 2 ^ e * inv + 0 [MOD base] := by
            apply Nat.ModEq.add_left
            split
            · simpa using (Nat.modEq_zero_iff_dvd.mpr ⟨2 ^ e, by ring⟩)
            · rfl
        _ = 2 ^ e * inv := by ring
        _ ≡ 1 [MOD base] := ih

/-- The derived properties of a context built by `getReductionContext` on an
odd modulus of at least 3: the auxiliary modulus is the power of two just
above `base`, `rInv` inverts it mod `base`, and `baseInv` inverts `base` mod
the auxiliary modulus. -/
structure MontCtxFacts (ctx : MontgomeryReductionContext) : Prop where
  odd : ctx.base % 2 = 1
  three_le : 3 ≤ ctx.base
  r_eq : ctx.r = 2 ^ ctx.shift
  base_lt_r : ctx.base < ctx.r
  rInv_ge_one : 1 ≤ ctx.rInv
  rInv_modeq : ctx.r * ctx.rInv ≡ 1 [MOD ctx.base]
  baseInv_modeq : ((ctx.baseInv : Int) * ctx.base) ≡ 1 [ZMOD (ctx.r : Int)]

theorem getReductionContext_ok (m : Nat) (ctx : MontgomeryReductionContext)
    (h : getReductionContext m = .ok ctx) :
    m % 2 = 1 ∧ ctx = ⟨m, bitLength m, 2 ^ bitLength m,
      invertPowerOfTwo (bitLength m) m,
      2 ^ bitLength m - (invertPowerOfTwo (bitLength m) m * 2 ^ bitLength m - 1) / m % 2 ^ bitLength m⟩ := by
  unfold getReductionContext at h
  by_cases hodd : m &&& 1 = 0
  · rw [if_pos hodd] at h
    exact absurd h (by simp)
  · rw [if_neg hodd] at h
    simp only [Except.ok.injEq] at h
    have hm2 : m % 2 = 1 := by
      have := Nat.and_one_is_mod m
      omega
    refine ⟨hm2, ?_⟩
    rw [← h]
    simp [Nat.shiftLeft_eq]

theorem montCtxFacts (m : Nat) (hm : 3 ≤ m) (ctx : MontgomeryReductionContext)
    (h : getReductionContext m = .ok ctx) : ctx.base = m ∧ MontCtxFacts ctx := by
  obtain ⟨hm2, hctx⟩ := getReductionContext_ok m ctx h
  subst hctx
  refine ⟨rfl, ?_⟩
  have hmne : m ≠ 0 := by omega
  have hrInv1 : 1 ≤ invertPowerOfTwo (bitLength m) m := invertPowerOfTwo_ge_one m hm2 _
  have hrmod : 2 ^ bitLength m * invertPowerOfTwo (bitLength m) m ≡ 1 [MOD m] :=
    invertPowerOfTwo_modeq m hm2 (bitLength m)
  have hltr : m < 2 ^ bitLength m := lt_two_pow_bitLength m
  refine ⟨hm2, hm, rfl, hltr, hrInv1, hrmod, ?_⟩
  -- baseInv * base = 1 (mod r)
  set s := bitLength m with hs
  set rInv := invertPowerOfTwo s m with hrI
  set R := 2 ^ s with hR
  have hRpos : 0 < R := Nat.pos_pow_of_pos s (by omega)
  have hprod1 : 1 ≤ rInv * R := Nat.one_le_iff_ne_zero.mpr (by positivity)
  have hdvd : m ∣ rInv * R - 1 := by
    have h2 : 1 ≡ rInv * R [MOD m] := by
      rw [Nat.mul_comm rInv R]
      exact hrmod.symm
    exact (Nat.modEq_iff_dvd' hprod1).mp h2
  set q := (rInv * R - 1) / m with hq
  have hqm : q * m = rInv * R - 1 := Nat.div_mul_cancel hdvd
  have hqmod : ((q % R : Nat) : Int) ≡ (q : Int) [ZMOD (R : Int)] := by
    have : ((q % R : Nat) : Int) = (q : Int) % (R : Int) := by push_cast; rfl
    rw [this]
    exact Int.emod_emod_of_dvd q dvd_rfl
  have hqR_le : q % R ≤ R := le_of_lt (Nat.mod_lt _ hRpos)
  have hcast : ((R - q % R : Nat) : Int) = (R : Int) - ((q % R : Nat) : Int) := by
    omega
  calc ((R - q % R : Nat) : Int) * (m : Int)
      = ((R : Int) - ((q % R : Nat) : Int)) * m := by rw [hcast]
    _ ≡ ((R : Int) - (q : Int)) * m [ZMOD (R : Int)] := (Int.ModEq.sub (Int.ModEq.refl _) hqmod).mul_right _
    _ = (R : Int) * m - (q : Int) * m := by ring
    _ ≡ 0 * m - (q : Int) * m [ZMOD (R : Int)] := by
        apply Int.ModEq.sub_right
        apply Int.ModEq.mul_right
        exact (Int.modEq_iff_dvd.mpr (by simp)).symm
    _ = -((q * m : Nat) : Int) := by push_cast; ring
    _ = -(((rInv * R : Nat) : Int) - 1) := by
        rw [hqm]
        push_cast [hprod1]
        ring
    _ = 1 - (rInv : Int) * (R : Int) := by push_cast; ring
    _ ≡ 1 - (rInv : Int) * 0 [ZMOD (R : Int)] := by
        apply Int.ModEq.sub_left
        apply Int.ModEq.mul_left
        exact (Int.modEq_iff_dvd.mpr (by simp)).symm
    _ = 1 := by ring

/-! ## Correctness of Montgomery multiplication -/

theorem montgomeryReduce_lt (x : Nat) (ctx : MontgomeryReductionContext)
    (h : 0 < ctx.base) : montgomeryReduce x ctx < ctx.base :=
  Nat.mod_lt _ h

theorem montgomeryReduce_modeq (x : Nat) (ctx : MontgomeryReductionContext)
    (F : MontCtxFacts ctx) : montgomeryReduce x ctx ≡ x * ctx.r [MOD ctx.base] := by
  unfold montgomeryReduce
  rw [Nat.shiftLeft_eq, ← F.r_eq]
  exact Nat.mod_modEq _ _

theorem invMontgomeryReduce_lt (x : Nat) (ctx : MontgomeryReductionContext)
    (h : 0 < ctx.base) : invMontgomeryReduce x ctx < ctx.base :=
  Nat.mod_lt _ h

theorem invMontgomeryReduce_modeq (x : Nat) (ctx : MontgomeryReductionContext) :
    invMontgomeryReduce x ctx ≡ x * ctx.rInv [MOD ctx.base] :=
  Nat.mod_modEq _ _

/-- The fold equation of `montgomeryMul`: the returned value is the pre-fold
product corrected by at most one conditional subtract or add of `base`. -/
theorem montgomeryMul_eq_fold (a b : Nat) (ctx : MontgomeryReductionContext) :
    montgomeryMul a b ctx =
      (if (ctx.base : Int) ≤ montgomeryMulProduct a b ctx then
        montgomeryMulProduct a b ctx - ctx.base
      else if montgomeryMulProduct a b ctx < 0 then
        montgomeryMulProduct a b ctx + ctx.base
      else montgomeryMulProduct a b ctx).toNat := by
  by_cases h : a = 0 ∨ b = 0
  · rw [montgomeryMul, if_pos h]
    have hp : montgomeryMulProduct a b ctx = 0 := by
      have hu : a * b = 0 := by rcases h with h | h <;> simp [h]
      simp only [montgomeryMulProduct, hu]
      simp
    rw [hp]
    rcases Nat.eq_zero_or_pos ctx.base with hm | hm
    · simp [hm]
    · rw [if_neg (by exact_mod_cast Nat.not_le.mpr hm), if_neg (by omega)]
      rfl
  · rw [montgomeryMul, if_neg h]

theorem montgomeryMulProduct_spec (ctx : MontgomeryReductionContext)
    (F : MontCtxFacts ctx) (a b : Nat) (ha : a < ctx.base) (hb : b < ctx.base) :
    (-(ctx.base : Int) < montgomeryMulProduct a b ctx ∧
      montgomeryMulProduct a b ctx < ctx.base) ∧
    montgomeryMulProduct a b ctx * ctx.r ≡ ((a * b : Nat) : Int) [ZMOD (ctx.base : Int)] := by
  obtain ⟨m, s, R, rI, K⟩ := ctx
  have hReq : R = 2 ^ s := F.r_eq
  subst hReq
  simp only at ha hb ⊢
  have hmpos : 0 < m := by have := F.three_le; simp only at this; omega
  have hRpos : 0 < 2 ^ s := Nat.pos_pow_of_pos s (by omega)
  have hbinv : ((K : Int) * m) ≡ 1 [ZMOD ((2 ^ s : Nat) : Int)] := F.baseInv_modeq
  have hbase_lt : m < 2 ^ s := F.base_lt_r
  set w := (a * b % 2 ^ s * K) % 2 ^ s with hw
  have hmask : montgomeryMulProduct a b ⟨m, s, 2 ^ s, rI, K⟩
      = Int.fdiv (((a * b : Nat) : Int) - ((w * m : Nat) : Int)) ((2 : Int) ^ s) := by
    simp only [montgomeryMulProduct]
    rw [Nat.and_pow_two_sub_one_eq_mod, Nat.and_pow_two_sub_one_eq_mod]
  -- divisibility of the unfolded numerator by 2^s
  have hwmod : (w : Nat) ≡ a * b * K [MOD 2 ^ s] := by
    calc w ≡ a * b % 2 ^ s * K [MOD 2 ^ s] := Nat.mod_modEq _ _
      _ ≡ a * b * K [MOD 2 ^ s] := (Nat.mod_modEq (a * b) (2 ^ s)).mul_right _
  have htmod : ((w * m : Nat) : Int) ≡ ((a * b : Nat) : Int) [ZMOD ((2 ^ s : Nat) : Int)] := by
    calc ((w * m : Nat) : Int) = (w : Int) * m := by push_cast; ring
      _ ≡ ((a * b : Nat) : Int) * K * m [ZMOD ((2 ^ s : Nat) : Int)] := by
          apply Int.ModEq.mul_right
          have h2 := Int.natCast_modEq_iff.mpr hwmod
          push_cast at h2 ⊢
          exact h2
      _ = ((a * b : Nat) : Int) * ((K : Int) * m) := by push_cast; ring
      _ ≡ ((a * b : Nat) : Int) * 1 [ZMOD ((2 ^ s : Nat) : Int)] := Int.ModEq.mul_left _ hbinv
      _ = ((a * b : Nat) : Int) := by ring
  have hcast2 : (((2 ^ s : Nat) : Int)) = (2 : Int) ^ s := by push_cast; ring
  have hdvd : ((2 : Int) ^ s) ∣ (((a * b : Nat) : Int) - ((w * m : Nat) : Int)) := by
    rw [← hcast2]
    exact Int.ModEq.dvd htmod
  have hexact : montgomeryMulProduct a b ⟨m, s, 2 ^ s, rI, K⟩ * (2 : Int) ^ s
      = ((a * b : Nat) : Int) - ((w * m : Nat) : Int) := by
    rw [hmask, Int.fdiv_eq_ediv _ (by positivity)]
    exact Int.ediv_mul_cancel hdvd
  -- bounds
  have huhigh : ((a * b : Nat) : Int) < (m : Int) * m := by
    have h2 : a * b < m * m := by nlinarith
    exact_mod_cast h2
  have hthigh : ((w * m : Nat) : Int) < (2 : Int) ^ s * m := by
    have hwlt : w < 2 ^ s := Nat.mod_lt _ hRpos
    have h2 : w * m < 2 ^ s * m := by nlinarith
    exact_mod_cast h2
  have htlow : (0 : Int) ≤ ((w * m : Nat) : Int) := by positivity
  have hulow : (0 : Int) ≤ ((a * b : Nat) : Int) := by positivity
  have hmR : (m : Int) * m < (m : Int) * (2 : Int) ^ s := by
    have h2 : m * m < m * 2 ^ s := by nlinarith
    exact_mod_cast h2
  have hsRpos : (0 : Int) < (2 : Int) ^ s := by positivity
  have hup : montgomeryMulProduct a b ⟨m, s, 2 ^ s, rI, K⟩ * (2 : Int) ^ s
      < (m : Int) * (2 : Int) ^ s := by
    rw [hexact]
    linarith
  have hlow : -((m : Int) * (2 : Int) ^ s)
      < montgomeryMulProduct a b ⟨m, s, 2 ^ s, rI, K⟩ * (2 : Int) ^ s := by
    rw [hexact]
    linarith
  have hbound1 : montgomeryMulProduct a b ⟨m, s, 2 ^ s, rI, K⟩ < (m : Int) :=
    lt_of_mul_lt_mul_right hup (le_of_lt hsRpos)
  have hbound2 : -(m : Int) < montgomeryMulProduct a b ⟨m, s, 2 ^ s, rI, K⟩ := by
    by_contra hcon
    push_neg at hcon
    have h2 : montgomeryMulProduct a b ⟨m, s, 2 ^ s, rI, K⟩ * (2 : Int) ^ s
        ≤ -(m : Int) * (2 : Int) ^ s :=
      mul_le_mul_of_nonneg_right hcon (le_of_lt hsRpos)
    have h3 : -(m : Int) * (2 : Int) ^ s = -((m : Int) * (2 : Int) ^ s) := by ring
    linarith
  refine ⟨⟨hbound2, hbound1⟩, ?_⟩
  -- congruence modulo base
  calc montgomeryMulProduct a b ⟨m, s, 2 ^ s, rI, K⟩ * (((2 ^ s : Nat) : Int))
      = montgomeryMulProduct a b ⟨m, s, 2 ^ s, rI, K⟩ * (2 : Int) ^ s := by rw [hcast2]
    _ = ((a * b : Nat) : Int) - ((w * m : Nat) : Int) := hexact
    _ ≡ ((a * b : Nat) : Int) - 0 [ZMOD (m : Int)] := by
        apply Int.ModEq.sub_left
        refine (Int.modEq_iff_dvd.mpr ?_).symm
        push_cast
        exact ⟨(w : Int), by ring⟩
    _ = ((a * b : Nat) : Int) := by ring

theorem montgomeryMul_correct (ctx : MontgomeryReductionContext)
    (F : MontCtxFacts ctx) (a b : Nat) (ha : a < ctx.base) (hb : b < ctx.base) :
    montgomeryMul a b ctx < ctx.base ∧
    montgomeryMul a b ctx ≡ a * b * ctx.rInv [MOD ctx.base] := by
  have hmpos : 0 < ctx.base := by have := F.three_le; omega
  by_cases h : a = 0 ∨ b = 0
  · have hab : a * b = 0 := by rcases h with h | h <;> simp [h]
    rw [montgomeryMul, if_pos h]
    refine ⟨hmpos, ?_⟩
    rw [hab, Nat.zero_mul]
  · obtain ⟨⟨hlo, hhi⟩, hcong⟩ := montgomeryMulProduct_spec ctx F a b ha hb
    have hRmod : ((ctx.r * ctx.rInv : Nat) : Int) ≡ ((1 : Nat) : Int) [ZMOD ((ctx.base : Nat) : Int)] :=
      Int.natCast_modEq_iff.mpr F.rInv_modeq
    have key : ∀ v : Nat, (v : Int) ≡ montgomeryMulProduct a b ctx [ZMOD (ctx.base : Int)] →
        v ≡ a * b * ctx.rInv [MOD ctx.base] := by
      intro v hv
      have hchain : (v : Int) ≡ ((a * b * ctx.rInv : Nat) : Int) [ZMOD (ctx.base : Int)] := by
        calc (v : Int) = (v : Int) * 1 := by ring
          _ ≡ (v : Int) * ((ctx.r * ctx.rInv : Nat) : Int) [ZMOD (ctx.base : Int)] :=
              Int.ModEq.mul_left _ (by exact_mod_cast hRmod.symm)
          _ = (v : Int) * ctx.r * ctx.rInv := by push_cast; ring
          _ ≡ montgomeryMulProduct a b ctx * ctx.r * ctx.rInv [ZMOD (ctx.base : Int)] :=
              (hv.mul_right _).mul_right _
          _ ≡ ((a * b : Nat) : Int) * ctx.rInv [ZMOD (ctx.base : Int)] :=
              hcong.mul_right _
          _ = ((a * b * ctx.rInv : Nat) : Int) := by push_cast; ring
      exact Int.natCast_modEq_iff.mp (by exact_mod_cast hchain)
    rw [montgomeryMul_eq_fold a b ctx]
    rw [if_neg (by omega)]
    by_cases hneg : montgomeryMulProduct a b ctx < 0
    · rw [if_pos hneg]
      constructor
      · omega
      · apply key
        rw [Int.toNat_of_nonneg (by omega)]
        have hm0 : (ctx.base : Int) ≡ 0 [ZMOD (ctx.base : Int)] :=
          Int.modEq_zero_iff_dvd.mpr dvd_rfl
        calc montgomeryMulProduct a b ctx + (ctx.base : Int)
            ≡ montgomeryMulProduct a b ctx + 0 [ZMOD (ctx.base : Int)] :=
              Int.ModEq.add_left _ hm0
          _ = montgomeryMulProduct a b ctx := by ring
    · rw [if_neg hneg]
      constructor
      · omega
      · apply key
        rw [Int.toNat_of_nonneg (by omega)]

theorem invRed_montgomeryMul (ctx : MontgomeryReductionContext)
    (F : MontCtxFacts ctx) (a b : Nat) (ha : a < ctx.base) (hb : b < ctx.base) :
    invMontgomeryReduce (montgomeryMul a b ctx) ctx ≡
      invMontgomeryReduce a ctx * invMontgomeryReduce b ctx [MOD ctx.base] := by
  have h := (montgomeryMul_correct ctx F a b ha hb).2
  calc invMontgomeryReduce (montgomeryMul a b ctx) ctx
      ≡ montgomeryMul a b ctx * ctx.rInv [MOD ctx.base] := invMontgomeryReduce_modeq _ _
    _ ≡ a * b * ctx.rInv * ctx.rInv [MOD ctx.base] := h.mul_right _
    _ = (a * ctx.rInv) * (b * ctx.rInv) := by ring
    _ ≡ invMontgomeryReduce a ctx * invMontgomeryReduce b ctx [MOD ctx.base] :=
        Nat.ModEq.mul (invMontgomeryReduce_modeq a ctx).symm (invMontgomeryReduce_modeq b ctx).symm

/-! ## Correctness of Montgomery exponentiation -/

theorem mod_two_pow_succ (e f : Nat) : e % 2 ^ (f + 1) = e % 2 + 2 * (e / 2 % 2 ^ f) := by
  have hpos : 0 < 2 ^ f := Nat.pos_pow_of_pos f (by omega)
  rw [pow_succ']
  conv_lhs => rw [show e = 2 * (e / 2) + e % 2 from by omega]
  rw [Nat.add_mod, Nat.mul_mod_mul_left]
  have hx : e / 2 % 2 ^ f < 2 ^ f := Nat.mod_lt _ hpos
  have hy : e % 2 % (2 * 2 ^ f) = e % 2 := Nat.mod_eq_of_lt (by omega)
  rw [hy, Nat.mod_eq_of_lt (by omega)]
  omega

theorem and_one_shift_ne (exp i : Nat) :
    (exp &&& (1 <<< i) ≠ 0) ↔ exp / 2 ^ i % 2 = 1 := by
  rw [Nat.shiftLeft_eq, one_mul, Nat.and_two_pow, Nat.testBit_to_div_mod]
  have h2 : (2 : Nat) ^ i ≠ 0 := by positivity
  by_cases h : exp / 2 ^ i % 2 = 1
  · simp [h, h2]
  · simp [h]

theorem montgomeryPowAux_spec (ctx : MontgomeryReductionContext)
    (F : MontCtxFacts ctx) (exp : Nat) :
    ∀ fuel i x result : Nat, x < ctx.base → result < ctx.base →
      montgomeryPowAux ctx exp fuel i x result < ctx.base ∧
      invMontgomeryReduce (montgomeryPowAux ctx exp fuel i x result) ctx ≡
        invMontgomeryReduce result ctx *
          invMontgomeryReduce x ctx ^ (exp / 2 ^ i % 2 ^ fuel) [MOD ctx.base] := by
  intro fuel
  induction fuel with
  | zero =>
      intro i x result hx hres
      simp only [montgomeryPowAux, pow_zero, Nat.mod_one]
      refine ⟨hres, ?_⟩
      rw [Nat.mul_one]
  | succ f ih =>
      intro i x result hx hres
      simp only [montgomeryPowAux]
      have hx' : montgomerySqr x ctx < ctx.base := by
        rw [montgomerySqr]
        exact (montgomeryMul_correct ctx F x x hx hx).1
      have hres' : (if exp &&& (1 <<< i) ≠ 0 then montgomeryMul result x ctx else result) < ctx.base := by
        split
        · exact (montgomeryMul_correct ctx F result x hres hx).1
        · exact hres
      obtain ⟨hlt, hcong⟩ := ih (i + 1) (montgomerySqr x ctx) _ hx' hres'
      refine ⟨hlt, ?_⟩
      have hsq : invMontgomeryReduce (montgomerySqr x ctx) ctx ≡
          invMontgomeryReduce x ctx * invMontgomeryReduce x ctx [MOD ctx.base] := by
        rw [montgomerySqr]
        exact invRed_montgomeryMul ctx F x x hx hx
      have hdiv : exp / 2 ^ (i + 1) = exp / 2 ^ i / 2 := by
        rw [Nat.div_div_eq_div_mul, pow_succ]
      have hsplit : exp / 2 ^ i % 2 ^ (f + 1)
          = exp / 2 ^ i % 2 + 2 * (exp / 2 ^ (i + 1) % 2 ^ f) := by
        rw [hdiv]
        exact mod_two_pow_succ (exp / 2 ^ i) f
      by_cases hbit : exp &&& (1 <<< i) ≠ 0
      · have hb1 : exp / 2 ^ i % 2 = 1 := (and_one_shift_ne exp i).mp hbit
        rw [if_pos hbit] at hcong ⊢
        have hmulred : invMontgomeryReduce (montgomeryMul result x ctx) ctx ≡
            invMontgomeryReduce result ctx * invMontgomeryReduce x ctx [MOD ctx.base] :=
          invRed_montgomeryMul ctx F result x hres hx
        calc invMontgomeryReduce (montgomeryPowAux ctx exp f (i + 1) (montgomerySqr x ctx)
              (montgomeryMul result x ctx)) ctx
            ≡ invMontgomeryReduce (montgomeryMul result x ctx) ctx *
                invMontgomeryReduce (montgomerySqr x ctx) ctx ^ (exp / 2 ^ (i + 1) % 2 ^ f)
              [MOD ctx.base] := hcong
          _ ≡ (invMontgomeryReduce result ctx * invMontgomeryReduce x ctx) *
                (invMontgomeryReduce x ctx * invMontgomeryReduce x ctx) ^ (exp / 2 ^ (i + 1) % 2 ^ f)
              [MOD ctx.base] := Nat.ModEq.mul hmulred (hsq.pow _)
          _ = invMontgomeryReduce result ctx *
                invMontgomeryReduce x ctx ^ (1 + 2 * (exp / 2 ^ (i + 1) % 2 ^ f)) := by
              rw [← pow_two, ← pow_mul, pow_add, pow_one]
              ring
          _ = invMontgomeryReduce result ctx *
                invMontgomeryReduce x ctx ^ (exp / 2 ^ i % 2 ^ (f + 1)) := by
              rw [hsplit, hb1]
      · have hb0 : exp / 2 ^ i % 2 = 0 := by
          have := (and_one_shift_ne exp i).not.mp hbit
          omega
        rw [if_neg hbit] at hcong ⊢
        calc invMontgomeryReduce (montgomeryPowAux ctx exp f (i + 1) (montgomerySqr x ctx)
              result) ctx
            ≡ invMontgomeryReduce result ctx *
                invMontgomeryReduce (montgomerySqr x ctx) ctx ^ (exp / 2 ^ (i + 1) % 2 ^ f)
              [MOD ctx.base] := hcong
          _ ≡ invMontgomeryReduce result ctx *
                (invMontgomeryReduce x ctx * invMontgomeryReduce x ctx) ^ (exp / 2 ^ (i + 1) % 2 ^ f)
              [MOD ctx.base] := Nat.ModEq.mul_left _ (hsq.pow _)
          _ = invMontgomeryReduce result ctx *
                invMontgomeryReduce x ctx ^ (0 + 2 * (exp / 2 ^ (i + 1) % 2 ^ f)) := by
              rw [← pow_two, ← pow_mul, Nat.zero_add]
          _ = invMontgomeryReduce result ctx *
                invMontgomeryReduce x ctx ^ (exp / 2 ^ i % 2 ^ (f + 1)) := by
              rw [hsplit, hb0]

theorem montgomeryPow_lt (ctx : MontgomeryReductionContext) (F : MontCtxFacts ctx)
    (a exp : Nat) (ha : a < ctx.base) : montgomeryPow a exp ctx < ctx.base := by
  have hmpos : 0 < ctx.base := by have := F.three_le; omega
  exact (montgomeryPowAux_spec ctx F exp (bitLength exp) 0 a (montgomeryReduce 1 ctx)
    ha (montgomeryReduce_lt 1 ctx hmpos)).1

/-- C1 helper: Montgomery exponentiation computes, in Montgomery form, the
power of the residue represented by its input. -/
theorem invRed_montgomeryPow (ctx : MontgomeryReductionContext) (F : MontCtxFacts ctx)
    (a exp : Nat) (ha : a < ctx.base) :
    invMontgomeryReduce (montgomeryPow a exp ctx) ctx =
      invMontgomeryReduce a ctx ^ exp % ctx.base := by
  have hmpos : 0 < ctx.base := by have := F.three_le; omega
  obtain ⟨hlt, hcong⟩ := montgomeryPowAux_spec ctx F exp (bitLength exp) 0 a
    (montgomeryReduce 1 ctx) ha (montgomeryReduce_lt 1 ctx hmpos)
  have hexp : exp / 2 ^ 0 % 2 ^ bitLength exp = exp := by
    rw [pow_zero, Nat.div_one]
    exact Nat.mod_eq_of_lt (lt_two_pow_bitLength exp)
  rw [hexp] at hcong
  have hone : invMontgomeryReduce (montgomeryReduce 1 ctx) ctx ≡ 1 [MOD ctx.base] := by
    calc invMontgomeryReduce (montgomeryReduce 1 ctx) ctx
        ≡ montgomeryReduce 1 ctx * ctx.rInv [MOD ctx.base] := invMontgomeryReduce_modeq _ _
      _ ≡ 1 * ctx.r * ctx.rInv [MOD ctx.base] := (montgomeryReduce_modeq 1 ctx F).mul_right _
      _ = ctx.r * ctx.rInv := by ring
      _ ≡ 1 [MOD ctx.base] := F.rInv_modeq
  have hfinal : invMontgomeryReduce (montgomeryPow a exp ctx) ctx ≡
      invMontgomeryReduce a ctx ^ exp [MOD ctx.base] := by
    calc invMontgomeryReduce (montgomeryPow a exp ctx) ctx
        ≡ invMontgomeryReduce (montgomeryReduce 1 ctx) ctx *
            invMontgomeryReduce a ctx ^ exp [MOD ctx.base] := hcong
      _ ≡ 1 * invMontgomeryReduce a ctx ^ exp [MOD ctx.base] := hone.mul_right _
      _ = invMontgomeryReduce a ctx ^ exp := by ring
  have hred : invMontgomeryReduce (montgomeryPow a exp ctx) ctx < ctx.base :=
    invMontgomeryReduce_lt _ ctx hmpos
  calc invMontgomeryReduce (montgomeryPow a exp ctx) ctx
      = invMontgomeryReduce (montgomeryPow a exp ctx) ctx % ctx.base :=
        (Nat.mod_eq_of_lt hred).symm
    _ = invMontgomeryReduce a ctx ^ exp % ctx.base := hfinal

/-! ## Claim theorems: arithmetic layer -/

/-- C1: for every odd modulus `base >= 3` whose Montgomery context is
created by `getReductionContext base`, every `a` in `[0, base)` in
Montgomery form, and every exponent `exp >= 0`, `montgomeryPow a exp ctx`
returns the Montgomery-form representative of `x ^ exp mod base` where `x`
is the residue whose Montgomery form is `a`; formally
`invMontgomeryReduce (montgomeryPow a exp ctx) = (invMontgomeryReduce a) ^ exp % base`. -/
theorem montgomeryPow_montgomery_form (base : Nat) (ctx : MontgomeryReductionContext)
    (hbase : 3 ≤ base) (hctx : getReductionContext base = .ok ctx)
    (a : Nat) (ha : a < base) (exp : Nat) :
    invMontgomeryReduce (montgomeryPow a exp ctx) ctx =
      invMontgomeryReduce a ctx ^ exp % base := by
  obtain ⟨hbe, F⟩ := montCtxFacts base hbase ctx hctx
  rw [← hbe] at ha ⊢
  exact invRed_montgomeryPow ctx F a exp ha

/-- Witness for C1 at `base = 5`, `a = 3`, `exp = 4`. -/
theorem montgomeryPow_montgomery_form_witness :
    3 ≤ 5 ∧ getReductionContext 5 = .ok ⟨5, 3, 8, 2, 5⟩ ∧ (3 : Nat) < 5 ∧
    invMontgomeryReduce (montgomeryPow 3 4 ⟨5, 3, 8, 2, 5⟩) ⟨5, 3, 8, 2, 5⟩ =
      invMontgomeryReduce 3 ⟨5, 3, 8, 2, 5⟩ ^ 4 % 5 := by
  have hctx : getReductionContext 5 = .ok ⟨5, 3, 8, 2, 5⟩ := by
    simp [getReductionContext, bitLength, Nat.log2, invertPowerOfTwo]
  exact ⟨by omega, hctx, by omega,
    montgomeryPow_montgomery_form 5 ⟨5, 3, 8, 2, 5⟩ (by omega) hctx 3 (by omega) 4⟩

/-- C5: the binary gcd `ugcd` agrees with the mathematical gcd on all
non-negative inputs; in particular `ugcd a a = a`, `ugcd a 0 = a` and
`ugcd 0 b = b`. -/
theorem ugcd_matches_gcd :
    ∀ a b : Nat, ugcd a b = Nat.gcd a b ∧ ugcd a a = a ∧ ugcd a 0 = a ∧ ugcd 0 b = b := by
  intro a b
  refine ⟨ugcd_eq_gcd a b, ?_, ?_, ?_⟩
  · rw [ugcd_eq_gcd, Nat.gcd_self]
  · rw [ugcd_eq_gcd, Nat.gcd_zero_right]
  · rw [ugcd_eq_gcd, Nat.gcd_zero_left]

/-- C6: for every odd modulus `base >= 3` with context from
`getReductionContext base` and all `a, b` in `[0, base)`, `montgomeryMul`
returns a value in `[0, base)` congruent to `a * b * rInv` modulo `base`
(the Montgomery product `a * b / auxModulus mod base`), where the pre-fold
product lies in `(-base, 2 * base)` and the result is that product folded
into range by at most one conditional subtract or add of `base`. -/
theorem montgomeryMul_product_bounds (base : Nat) (ctx : MontgomeryReductionContext)
    (hbase : 3 ≤ base) (hctx : getReductionContext base = .ok ctx)
    (a b : Nat) (ha : a < base) (hb : b < base) :
    montgomeryMul a b ctx < base ∧
    montgomeryMul a b ctx ≡ a * b * ctx.rInv [MOD base] ∧
    (-(base : Int) < montgomeryMulProduct a b ctx ∧
      montgomeryMulProduct a b ctx < 2 * base) ∧
    montgomeryMul a b ctx =
      (if (base : Int) ≤ montgomeryMulProduct a b ctx then
        montgomeryMulProduct a b ctx - base
      else if montgomeryMulProduct a b ctx < 0 then
        montgomeryMulProduct a b ctx + base
      else montgomeryMulProduct a b ctx).toNat := by
  obtain ⟨hbe, F⟩ := montCtxFacts base hbase ctx hctx
  rw [← hbe] at ha hb ⊢
  obtain ⟨hlt, hcong⟩ := montgomeryMul_correct ctx F a b ha hb
  obtain ⟨⟨hplo, hphi⟩, _⟩ := montgomeryMulProduct_spec ctx F a b ha hb
  refine ⟨hlt, hcong, ⟨hplo, by omega⟩, montgomeryMul_eq_fold a b ctx⟩

/-- Witness for C6 at `base = 5`, `a = 3`, `b = 4`. -/
theorem montgomeryMul_product_bounds_witness :
    3 ≤ 5 ∧ getReductionContext 5 = .ok ⟨5, 3, 8, 2, 5⟩ ∧ (3 : Nat) < 5 ∧ (4 : Nat) < 5 ∧
    (montgomeryMul 3 4 ⟨5, 3, 8, 2, 5⟩ < 5 ∧
     montgomeryMul 3 4 ⟨5, 3, 8, 2, 5⟩ ≡ 3 * 4 * (2 : Nat) [MOD 5] ∧
     (-(5 : Int) < montgomeryMulProduct 3 4 ⟨5, 3, 8, 2, 5⟩ ∧
       montgomeryMulProduct 3 4 ⟨5, 3, 8, 2, 5⟩ < 2 * 5) ∧
     montgomeryMul 3 4 ⟨5, 3, 8, 2, 5⟩ =
       (if ((5 : Nat) : Int) ≤ montgomeryMulProduct 3 4 ⟨5, 3, 8, 2, 5⟩ then
         montgomeryMulProduct 3 4 ⟨5, 3, 8, 2, 5⟩ - (5 : Nat)
       else if montgomeryMulProduct 3 4 ⟨5, 3, 8, 2, 5⟩ < 0 then
         montgomeryMulProduct 3 4 ⟨5, 3, 8, 2, 5⟩ + (5 : Nat)
       else montgomeryMulProduct 3 4 ⟨5, 3, 8, 2, 5⟩).toNat) := by
  have hctx : getReductionContext 5 = .ok ⟨5, 3, 8, 2, 5⟩ := by
    simp [getReductionContext, bitLength, Nat.log2, invertPowerOfTwo]
  exact ⟨by omega, hctx, by omega, by omega,
    montgomeryMul_product_bounds 5 ⟨5, 3, 8, 2, 5⟩ (by omega) hctx 3 4 (by omega) (by omega)⟩

/-- C8 counterexample: the source computes the bit length of 0 as the
length of the string "0", which is 1, not 0. -/
theorem bitLength_zero_counterexample : (bitLength 0 = 0) = False :=
  eq_false (by decide)

/-- C8 amended: `bitLength 0 = 1` (not 0), and for every positive `x`,
`bitLength x` is the number of binary digits of `x`, i.e. the unique `k`
with `2 ^ (k - 1) <= x < 2 ^ k`. -/
theorem bitLength_bits_amended :
    bitLength 0 = 1 ∧
    ∀ x : Nat, 0 < x → (2 ^ (bitLength x - 1) ≤ x ∧ x < 2 ^ bitLength x) := by
  refine ⟨by decide, fun x hx => ⟨two_pow_bitLength_pred_le x (by omega), lt_two_pow_bitLength x⟩⟩

/-- Witness for C8 at `x = 5`. -/
theorem bitLength_bits_amended_witness :
    0 < 5 ∧ (2 ^ (bitLength 5 - 1) ≤ 5 ∧ 5 < 2 ^ bitLength 5) :=
  ⟨by decide, bitLength_bits_amended.2 5 (by decide)⟩

/-! ## Structure of primalityTest -/

theorem primalityTest_eq (nIn : Int) (opts : PrimalityOptions) (ρ : Nat → Nat) :
    primalityTest nIn opts ρ =
      (primalityTestCore nIn.natAbs opts ρ).2.map
        (fun c => PrimalityResult.mk ((if nIn < 0 then -1 else 1) * nIn.natAbs)
          c.probablePrime c.witness c.divisor) :=
  rfl

theorem primalityTestWithTrace_fst (nIn : Int) (opts : PrimalityOptions) (ρ : Nat → Nat) :
    (primalityTestWithTrace nIn opts ρ).1 = (primalityTestCore nIn.natAbs opts ρ).1 :=
  rfl

theorem primalityTestCore_odd_eq (n : Nat) (h4 : 4 ≤ n) (hodd : n % 2 = 1)
    (opts : PrimalityOptions) (ρ : Nat → Nat) (ctx : MontgomeryReductionContext)
    (hctx : getReductionContext n = .ok ctx) :
    primalityTestCore n opts ρ =
      match validateBases
          (if opts.small_determinism_mode ∧ n < 341550071728321 then
            some (smallDeterminismBases n)
          else opts.bases) ((n - 1 : Nat) : Int) with
      | .error e =>
          ([.contextCreated, .montgomeryReduced (montgomeryReduce 1 ctx),
            .montgomeryReduced (montgomeryReduce (n - 1) ctx)], .error e)
      | .ok validBases =>
          let numRounds :=
            match validBases with
            | some vb => vb.length
            | none =>
                match opts.numRounds with
                | some k => if k < 1 then getAdaptiveNumRounds (bitLength n) else k
                | none => getAdaptiveNumRounds (bitLength n)
          let baseList : List Nat :=
            match validBases with
            | some vb => vb.map Int.toNat
            | none => (List.range numRounds).map ρ
          let rounds := runRounds n ctx (montgomeryReduce 1 ctx)
            (montgomeryReduce (n - 1) ctx) (twoMultiplicity (n - 1))
            ((n - 1) >>> twoMultiplicity (n - 1)) opts.findDivisor baseList
          ([.contextCreated, .montgomeryReduced (montgomeryReduce 1 ctx),
            .montgomeryReduced (montgomeryReduce (n - 1) ctx)] ++ rounds.1, .ok rounds.2) := by
  unfold primalityTestCore
  rw [if_neg (by omega), if_neg (by omega), if_neg (by omega), hctx]

/-! ## Facts about base validation -/

theorem validateBasesList_ok (nSub : Int) :
    ∀ (bs l : List Int), validateBasesList nSub bs = .ok l →
      l = bs ∧ ∀ b ∈ bs, 2 ≤ b ∧ b < nSub := by
  intro bs
  induction bs with
  | nil =>
      intro l h
      cases h
      exact ⟨rfl, by simp⟩
  | cons hd tl ih =>
      intro l h
      rw [validateBasesList] at h
      by_cases hc : 2 ≤ hd ∧ hd < nSub
      · rw [if_pos hc] at h
        cases htl : validateBasesList nSub tl with
        | error e => rw [htl] at h; cases h
        | ok l2 =>
            rw [htl] at h
            cases h
            obtain ⟨hl, hall⟩ := ih l2 htl
            subst hl
            refine ⟨rfl, ?_⟩
            intro b hb
            rcases List.mem_cons.mp hb with hb | hb
            · subst hb; exact hc
            · exact hall b hb
      · rw [if_neg hc] at h
        cases h

theorem validateBases_ok_some (bs : List Int) (nSub : Int) (v : Option (List Int))
    (h : validateBases (some bs) nSub = .ok v) :
    v = some bs ∧ ∀ b ∈ bs, 2 ≤ b ∧ b < nSub := by
  simp only [validateBases] at h
  cases hm : validateBasesList nSub bs with
  | error e => rw [hm] at h; simp [Except.map] at h
  | ok l =>
      rw [hm] at h
      simp only [Except.map] at h
      cases h
      obtain ⟨hl, hall⟩ := validateBasesList_ok nSub bs l hm
      subst hl
      exact ⟨rfl, hall⟩

theorem validateBases_error_shape (bases : Option (List Int)) (nSub : Int) (e : PError)
    (h : validateBases bases nSub = .error e) :
    ∃ b, e = .invalidBaseRange b ∧ ¬(2 ≤ b ∧ b < nSub) := by
  match bases with
  | none => simp [validateBases] at h
  | some bs =>
      simp only [validateBases] at h
      induction bs with
      | nil => simp [validateBasesList, Except.map] at h
      | cons hd tl ih =>
          rw [validateBasesList] at h
          by_cases hc : 2 ≤ hd ∧ hd < nSub
          · rw [if_pos hc] at h
            cases htl : validateBasesList nSub tl with
            | error e2 =>
                rw [htl] at h
                simp only [Except.map] at h
                cases h
                exact ih (by rw [htl]; rfl)
            | ok l2 =>
                rw [htl] at h
                simp [Except.map] at h
          · rw [if_neg hc] at h
            simp only [Except.map] at h
            cases h
            exact ⟨hd, rfl, hc⟩

theorem validateBases_error_of_bad (bs : List Int) (nSub : Int) (b0 : Int)
    (hmem : b0 ∈ bs) (hbad : ¬(2 ≤ b0 ∧ b0 < nSub)) :
    ∃ b, ¬(2 ≤ b ∧ b < nSub) ∧
      validateBases (some bs) nSub = .error (.invalidBaseRange b) := by
  induction bs with
  | nil => simp at hmem
  | cons hd tl ih =>
      by_cases hc : 2 ≤ hd ∧ hd < nSub
      · have hb0tl : b0 ∈ tl := by
          rcases List.mem_cons.mp hmem with h | h
          · subst h; exact absurd hc hbad
          · exact h
        obtain ⟨b, hb, htl⟩ := ih hb0tl
        refine ⟨b, hb, ?_⟩
        simp only [validateBases] at htl ⊢
        rw [validateBasesList, if_pos hc]
        cases hm : validateBasesList nSub tl with
        | error e2 =>
            rw [hm] at htl
            simp only [Except.map] at htl
            cases htl
            simp [Except.map]
        | ok l2 =>
            rw [hm] at htl
            simp [Except.map] at htl
      · refine ⟨hd, hc, ?_⟩
        simp only [validateBases]
        rw [validateBasesList, if_neg hc]
        rfl

theorem validateBases_ok_of_good (bs : List Int) (nSub : Int)
    (h : ∀ b ∈ bs, 2 ≤ b ∧ b < nSub) :
    validateBases (some bs) nSub = .ok (some bs) := by
  induction bs with
  | nil => rfl
  | cons hd tl ih =>
      have hhd := h hd (List.mem_cons_self hd tl)
      have htl : validateBases (some tl) nSub = .ok (some tl) :=
        ih fun b hb => h b (List.mem_cons_of_mem hd hb)
      simp only [validateBases] at htl ⊢
      rw [validateBasesList, if_pos hhd]
      cases hm : validateBasesList nSub tl with
      | error e2 => rw [hm] at htl; simp [Except.map] at htl
      | ok l2 =>
          rw [hm] at htl
          simp only [Except.map] at htl
          cases htl
          rfl

/-! ## Facts about the round loop -/

theorem runRounds_true_iff (n : Nat) (ctx : MontgomeryReductionContext)
    (oneR nSubR r d : Nat) (fd : Bool) :
    ∀ l : List Nat, (runRounds n ctx oneR nSubR r d fd l).2.probablePrime = true ↔
      ∀ b ∈ l, millerRabinRound n ctx oneR nSubR r d fd b = .pass := by
  intro l
  induction l with
  | nil => simp [runRounds]
  | cons base rest ih =>
      rw [runRounds]
      cases hm : millerRabinRound n ctx oneR nSubR r d fd base with
      | pass =>
          simp only
          constructor
          · intro h b hb
            rcases List.mem_cons.mp hb with hb | hb
            · subst hb; exact hm
            · exact (ih.mp h) b hb
          · intro h
            exact ih.mpr fun b hb => h b (List.mem_cons_of_mem base hb)
      | fail w dv =>
          simp only
          constructor
          · intro h
            cases h
          · intro h
            have h2 := h base (List.mem_cons_self base rest)
            rw [hm] at h2
            cases h2
  
theorem runRounds_true_shape (n : Nat) (ctx : MontgomeryReductionContext)
    (oneR nSubR r d : Nat) (fd : Bool) :
    ∀ l : List Nat, (runRounds n ctx oneR nSubR r d fd l).2.probablePrime = true →
      (runRounds n ctx oneR nSubR r d fd l).2 = ⟨true, none, none⟩ := by
  intro l
  induction l with
  | nil => intro _; rfl
  | cons base rest ih =>
      rw [runRounds]
      cases hm : millerRabinRound n ctx oneR nSubR r d fd base with
      | pass =>
          simp only
          exact ih
      | fail w dv =>
          simp only
          intro h
          cases h

theorem getReductionContext_isOk (m : Nat) (hodd : m % 2 = 1) :
    ∃ ctx, getReductionContext m = .ok ctx := by
  unfold getReductionContext
  rw [if_neg (by rw [Nat.and_one_is_mod]; omega)]
  exact ⟨_, rfl⟩

theorem primalityTestCore_probablePrime_shape (n : Nat) (opts : PrimalityOptions)
    (ρ : Nat → Nat) (c : CoreResult)
    (h : (primalityTestCore n opts ρ).2 = .ok c) (hp : c.probablePrime = true) :
    c.witness = none ∧ c.divisor = none := by
  by_cases h2 : n < 2
  · rw [primalityTestCore, if_pos h2] at h
    simp only [Except.ok.injEq] at h
    rw [← h] at hp
    cases hp
  · by_cases h4 : n < 4
    · rw [primalityTestCore, if_neg h2, if_pos h4] at h
      simp only [Except.ok.injEq] at h
      rw [← h]
      exact ⟨rfl, rfl⟩
    · by_cases heven : n % 2 = 0
      · rw [primalityTestCore, if_neg h2, if_neg h4, if_pos heven] at h
        simp only [Except.ok.injEq] at h
        rw [← h] at hp
        cases hp
      · obtain ⟨ctx, hctx⟩ := getReductionContext_isOk n (by omega)
        rw [primalityTestCore_odd_eq n (by omega) (by omega) opts ρ ctx hctx] at h
        cases hv : validateBases
            (if opts.small_determinism_mode ∧ n < 341550071728321 then
              some (smallDeterminismBases n)
            else opts.bases) ((n - 1 : Nat) : Int) with
        | error e =>
            rw [hv] at h
            cases h
        | ok validBases =>
            rw [hv] at h
            simp only [Except.ok.injEq] at h
            rw [← h] at hp ⊢
            have := runRounds_true_shape n ctx (montgomeryReduce 1 ctx)
              (montgomeryReduce (n - 1) ctx) (twoMultiplicity (n - 1))
              ((n - 1) >>> twoMultiplicity (n - 1)) opts.findDivisor _ hp
            rw [this]
            exact ⟨rfl, rfl⟩

theorem primalityTestCore_error_shape (n : Nat) (opts : PrimalityOptions)
    (ρ : Nat → Nat) (e : PError) (h : (primalityTestCore n opts ρ).2 = .error e) :
    ∃ b, e = .invalidBaseRange b := by
  by_cases h2 : n < 2
  · rw [primalityTestCore, if_pos h2] at h
    cases h
  · by_cases h4 : n < 4
    · rw [primalityTestCore, if_neg h2, if_pos h4] at h
      cases h
    · by_cases heven : n % 2 = 0
      · rw [primalityTestCore, if_neg h2, if_neg h4, if_pos heven] at h
        cases h
      · obtain ⟨ctx, hctx⟩ := getReductionContext_isOk n (by omega)
        rw [primalityTestCore_odd_eq n (by omega) (by omega) opts ρ ctx hctx] at h
        cases hv : validateBases
            (if opts.small_determinism_mode ∧ n < 341550071728321 then
              some (smallDeterminismBases n)
            else opts.bases) ((n - 1 : Nat) : Int) with
        | error e2 =>
            rw [hv] at h
            simp only [Except.error.injEq] at h
            obtain ⟨b, hb, _⟩ := validateBases_error_shape _ _ _ hv
            exact ⟨b, by rw [← h, hb]⟩
        | ok validBases =>
            rw [hv] at h
            cases h

/-! ## Claim theorems: primalityTest layer, part 1 -/

/-- C9: through the public `primalityTest` entry point the modulus handed to
`getReductionContext` is always odd, because even inputs are special-cased
out first; hence `primalityTest` never fails with the "base must be odd"
`InvalidModulus` error, on any input, options and random draws. -/
theorem primalityTest_never_invalidModulus (nIn : Int) (opts : PrimalityOptions)
    (ρ : Nat → Nat) :
    isInvalidModulusFailure (primalityTest nIn opts ρ) = false := by
  rw [primalityTest_eq]
  cases hc : (primalityTestCore nIn.natAbs opts ρ).2 with
  | ok c => simp [isInvalidModulusFailure, Except.map]
  | error e =>
      obtain ⟨b, hb⟩ := primalityTestCore_error_shape _ _ _ _ hc
      subst hb
      simp [isInvalidModulusFailure, Except.map]

/-- C10: whenever `primalityTest` returns a result with
`probablePrime = true`, both the `witness` and the `divisor` fields are
`null`; a non-null witness or divisor only ever accompanies
`probablePrime = false`. -/
theorem probablePrime_no_witness_divisor (nIn : Int) (opts : PrimalityOptions)
    (ρ : Nat → Nat) (res : PrimalityResult)
    (hres : primalityTest nIn opts ρ = .ok res) (hp : res.probablePrime = true) :
    res.witness = none ∧ res.divisor = none := by
  rw [primalityTest_eq] at hres
  cases hc : (primalityTestCore nIn.natAbs opts ρ).2 with
  | error e => rw [hc] at hres; cases hres
  | ok c =>
      rw [hc] at hres
      simp only [Except.map, Except.ok.injEq] at hres
      rw [← hres] at hp ⊢
      exact primalityTestCore_probablePrime_shape _ _ _ _ hc hp

/-- Witness for C10 at `n = 3` (prime special case). -/
theorem probablePrime_no_witness_divisor_witness :
    primalityTest 3 ⟨none, none, true, false⟩ (fun _ => 2) =
      .ok ⟨3, true, none, none⟩ ∧
    (⟨3, true, none, none⟩ : PrimalityResult).probablePrime = true ∧
    ((⟨3, true, none, none⟩ : PrimalityResult).witness = none ∧
     (⟨3, true, none, none⟩ : PrimalityResult).divisor = none) := by
  have h : primalityTest 3 ⟨none, none, true, false⟩ (fun _ => 2) =
      .ok ⟨3, true, none, none⟩ := by
    simp [primalityTest, primalityTestWithTrace, primalityTestCore, Except.map]
  exact ⟨h, rfl, probablePrime_no_witness_divisor 3 ⟨none, none, true, false⟩
    (fun _ => 2) ⟨3, true, none, none⟩ h rfl⟩

/-- C4: `primalityTest (-n)` yields the same `probablePrime` verdict as
`primalityTest n` under the same base draws, and the `n` field of any
returned result carries the original signed input. -/
theorem negative_input_same_verdict (n : Int) (opts : PrimalityOptions) (ρ : Nat → Nat) :
    verdictOf (primalityTest (-n) opts ρ) = verdictOf (primalityTest n opts ρ) ∧
    (nFieldOf (primalityTest n opts ρ) = none ∨
     nFieldOf (primalityTest n opts ρ) = some n) := by
  constructor
  · rw [primalityTest_eq, primalityTest_eq, Int.natAbs_neg]
    cases hc : (primalityTestCore n.natAbs opts ρ).2 with
    | error e => simp [verdictOf, Except.map]
    | ok c => simp [verdictOf, Except.map]
  · rw [primalityTest_eq]
    cases hc : (primalityTestCore n.natAbs opts ρ).2 with
    | error e => left; simp [nFieldOf, Except.map]
    | ok c =>
        right
        simp only [nFieldOf, Except.map, Option.some.injEq]
        by_cases hneg : n < 0
        · rw [if_pos hneg]
          have : ((n.natAbs : Nat) : Int) = -n := Int.ofNat_natAbs_of_nonpos (le_of_lt hneg)
          rw [this]
          ring
        · rw [if_neg hneg]
          have : ((n.natAbs : Nat) : Int) = n := Int.natAbs_of_nonneg (by omega)
          rw [this]
          ring

/-! ## Claim C2: validation order relative to Montgomery construction -/

theorem getReductionContext_eleven : getReductionContext 11 = .ok ⟨11, 4, 16, 9, 3⟩ := by
  have hbl : bitLength 11 = 4 := by simp [bitLength, Nat.log2]
  have hinv : invertPowerOfTwo 4 11 = 9 := rfl
  simp [getReductionContext, hbl, hinv]

/-- C2 counterexample: for `n = 11` with caller bases `[10]` (10 is outside
`[2, n-2] = [2, 9]`), the test does fail with a range error, but the
Montgomery reduction context has already been constructed and two
Montgomery reductions (of 1 and of `n-1`) have already run before the
validation failure: the trace preceding the error contains the context
construction, refuting "no Montgomery context construction or reduction
happens before the validation failure is raised". -/
theorem basesValidation_order_counterexample :
    primalityTestWithTrace 11 ⟨none, some [10], true, false⟩ (fun _ => 2) =
      ([TraceEvent.contextCreated, TraceEvent.montgomeryReduced 5,
        TraceEvent.montgomeryReduced 6],
       .error (.invalidBaseRange 10)) ∧
    TraceEvent.contextCreated ∈
      (primalityTestWithTrace 11 ⟨none, some [10], true, false⟩ (fun _ => 2)).1 := by
  have hcore : primalityTestCore 11 ⟨none, some [10], true, false⟩ (fun _ => 2) =
      ([TraceEvent.contextCreated, TraceEvent.montgomeryReduced 5,
        TraceEvent.montgomeryReduced 6],
       .error (.invalidBaseRange 10)) := by
    rw [primalityTestCore_odd_eq 11 (by omega) (by omega) _ _ ⟨11, 4, 16, 9, 3⟩
      getReductionContext_eleven]
    simp [validateBases, validateBasesList, montgomeryReduce, Except.map]
  have hmain : primalityTestWithTrace 11 ⟨none, some [10], true, false⟩ (fun _ => 2) =
      ([TraceEvent.contextCreated, TraceEvent.montgomeryReduced 5,
        TraceEvent.montgomeryReduced 6],
       .error (.invalidBaseRange 10)) := by
    unfold primalityTestWithTrace
    have habs : Int.natAbs 11 = 11 := rfl
    simp only [habs, hcore]
    rfl
  refine ⟨hmain, ?_⟩
  rw [hmain]
  simp

/-- C2 amended: for every odd `n >= 5` and caller-supplied bases containing
a value outside `[2, n-2]`, `primalityTest` fails with a range error
(carrying some out-of-range base) and no Miller-Rabin round is run; the
failure is raised after the Montgomery context construction and the two
initial Montgomery reductions, not before them. -/
theorem basesValidation_range_error_after_context (n : Nat) (hodd : n % 2 = 1)
    (h5 : 5 ≤ n) (numR : Option Nat) (fd : Bool) (bs : List Int) (ρ : Nat → Nat)
    (b0 : Int) (hb0 : b0 ∈ bs) (hbad : ¬(2 ≤ b0 ∧ b0 ≤ (n : Int) - 2)) :
    ∃ b, ¬(2 ≤ b ∧ b ≤ (n : Int) - 2) ∧
      primalityTest (n : Int) ⟨numR, some bs, fd, false⟩ ρ =
        .error (.invalidBaseRange b) ∧
      TraceEvent.contextCreated ∈
        (primalityTestWithTrace (n : Int) ⟨numR, some bs, fd, false⟩ ρ).1 ∧
      ∀ base, TraceEvent.roundFinished base ∉
        (primalityTestWithTrace (n : Int) ⟨numR, some bs, fd, false⟩ ρ).1 := by
  have hcast : ((n - 1 : Nat) : Int) = (n : Int) - 1 := by
    have : (1 : Nat) ≤ n := by omega
    push_cast [this]
    ring
  obtain ⟨ctx, hctx⟩ := getReductionContext_isOk n hodd
  obtain ⟨b, hb, hval⟩ := validateBases_error_of_bad bs ((n - 1 : Nat) : Int) b0 hb0
    (by rw [hcast]; omega)
  have hcore : primalityTestCore n ⟨numR, some bs, fd, false⟩ ρ =
      ([TraceEvent.contextCreated,
        TraceEvent.montgomeryReduced (montgomeryReduce 1 ctx),
        TraceEvent.montgomeryReduced (montgomeryReduce (n - 1) ctx)],
       .error (.invalidBaseRange b)) := by
    rw [primalityTestCore_odd_eq n (by omega) hodd _ _ ctx hctx]
    simp only [show (⟨numR, some bs, fd, false⟩ : PrimalityOptions).small_determinism_mode
      = false from rfl, Bool.false_eq_true, false_and, if_false]
    rw [hval]
  refine ⟨b, by rw [hcast] at hb; omega, ?_, ?_, ?_⟩
  · rw [primalityTest_eq]
    have habs : ((n : Int)).natAbs = n := Int.natAbs_ofNat n
    rw [habs, hcore]
    rfl
  · rw [primalityTestWithTrace_fst, Int.natAbs_ofNat, hcore]
    simp
  · intro base
    rw [primalityTestWithTrace_fst, Int.natAbs_ofNat, hcore]
    simp

/-- Witness for the amended C2 at `n = 11`, `bases = [10]`. -/
theorem basesValidation_range_error_after_context_witness :
    (11 : Nat) % 2 = 1 ∧ 5 ≤ 11 ∧ (10 : Int) ∈ ([10] : List Int) ∧
    ¬(2 ≤ (10 : Int) ∧ (10 : Int) ≤ (11 : Int) - 2) ∧
    (∃ b, ¬(2 ≤ b ∧ b ≤ ((11 : Nat) : Int) - 2) ∧
      primalityTest ((11 : Nat) : Int) ⟨none, some [10], true, false⟩ (fun _ => 2) =
        .error (.invalidBaseRange b) ∧
      TraceEvent.contextCreated ∈
        (primalityTestWithTrace ((11 : Nat) : Int) ⟨none, some [10], true, false⟩
          (fun _ => 2)).1 ∧
      ∀ base, TraceEvent.roundFinished base ∉
        (primalityTestWithTrace ((11 : Nat) : Int) ⟨none, some [10], true, false⟩
          (fun _ => 2)).1) :=
  ⟨by decide, by decide, by simp, by decide,
    basesValidation_range_error_after_context 11 (by decide) (by decide) none true
      [10] (fun _ => 2) 10 (by simp) (by decide)⟩

/-- Decidable equality for `Except`, needed to evaluate the embedded
validation results on concrete inputs. -/
instance exceptDecEq {ε α : Type} [DecidableEq ε] [DecidableEq α] :
    DecidableEq (Except ε α)
  | .error e1, .error e2 =>
      if h : e1 = e2 then .isTrue (by rw [h])
      else .isFalse (by intro hc; cases hc; exact h rfl)
  | .error _, .ok _ => .isFalse (by intro hc; cases hc)
  | .ok _, .error _ => .isFalse (by intro hc; cases hc)
  | .ok a1, .ok a2 =>
      if h : a1 = a2 then .isTrue (by rw [h])
      else .isFalse (by intro hc; cases hc; exact h rfl)

/-! ## Claim C7: deterministic base table vs explicit bases -/

theorem verdictOf_primalityTest (nIn : Int) (opts : PrimalityOptions) (ρ : Nat → Nat) :
    verdictOf (primalityTest nIn opts ρ) =
      ((primalityTestCore nIn.natAbs opts ρ).2.toOption).map CoreResult.probablePrime := by
  rw [primalityTest_eq]
  cases hc : (primalityTestCore nIn.natAbs opts ρ).2 with
  | error e => simp [verdictOf, Except.map, Except.toOption]
  | ok c => simp [verdictOf, Except.map, Except.toOption]

theorem smallDeterminismBases_subset (n : Nat) (b : Int)
    (hb : b ∈ smallDeterminismBases n) :
    b ∈ ([2, 3, 5, 7, 11, 13, 17] : List Int) := by
  unfold smallDeterminismBases at hb
  repeat' split at hb
  all_goals (fin_cases hb <;> decide)

theorem smallDeterminismBases_map_mem (n : Nat) (b : Nat)
    (hb : b ∈ (smallDeterminismBases n).map Int.toNat) :
    b ∈ ([2, 3, 5, 7, 11, 13, 17] : List Nat) := by
  obtain ⟨bI, hbI, hbeq⟩ := List.mem_map.mp hb
  have h2 := smallDeterminismBases_subset n bI hbI
  subst hbeq
  fin_cases h2 <;> decide

/-- The special-case returns of `primalityTestCore` for `m < 4` or even
`m`: these fire before the options are consulted, so the result depends
neither on the options nor on the base draws. -/
theorem primalityTestCore_special (m : Nat) (opts : PrimalityOptions) (ρ : Nat → Nat)
    (h : m < 4 ∨ m % 2 = 0) :
    primalityTestCore m opts ρ =
      ([], .ok (if m < 2 then ⟨false, none, none⟩
        else if m < 4 then ⟨true, none, none⟩ else ⟨false, none, some 2⟩)) := by
  by_cases h2 : m < 2
  · simp [primalityTestCore, h2]
  · by_cases h4 : m < 4
    · simp [primalityTestCore, h2, h4]
    · have he : m % 2 = 0 := h.resolve_left h4
      simp [primalityTestCore, h2, h4, he]

/-- The deterministic base table is an initial segment of
`[2, 3, 5, 7, 11, 13, 17]`: appending the dropped tail of the seven-base
list recovers the full list. -/
theorem smallDeterminismBases_append_drop (m : Nat) :
    (smallDeterminismBases m).map Int.toNat ++
      List.drop (smallDeterminismBases m).length ([2, 3, 5, 7, 11, 13, 17] : List Nat) =
      ([2, 3, 5, 7, 11, 13, 17] : List Nat) := by
  unfold smallDeterminismBases
  repeat' split
  all_goals decide

/-- C7 amended: supplying `bases = [2, 3, 5, 7, 11, 13, 17]` does not
reproduce the `small_determinism_mode` outcome on every input below
3474749660383; the exact relationship between the two runs is:
(a) for `|n| < 4` or even `|n|` the special cases fire before base handling
and the two runs return the same verdict; (b) for odd `|n|` in `[5, 19)`
the explicit-bases run fails with a range error while the
deterministic-mode run resolves with a verdict, so the outcomes differ;
(c) for odd `|n| >= 19` both runs resolve, and the explicit-bases verdict
is `true` exactly when the deterministic-mode verdict is `true` and every
base of the seven beyond the deterministic table's initial segment also
passes its Miller-Rabin round — so the two verdicts coincide precisely
when the dropped bases never reject an input that passed the table's
bases, which is the strong-pseudoprime threshold property that the table's
bounds encode and that the code itself does not establish. -/
theorem deterministic_mode_outcome_characterization (n : Int)
    (nr nr2 : Option Nat) (fd : Bool) (ρ ρ2 : Nat → Nat)
    (hbound : n.natAbs < 3474749660383) :
    (n.natAbs < 4 ∨ n.natAbs % 2 = 0 →
      verdictOf (primalityTest n ⟨nr, some [2, 3, 5, 7, 11, 13, 17], fd, false⟩ ρ) =
        verdictOf (primalityTest n ⟨nr2, none, fd, true⟩ ρ2) ∧
      (verdictOf (primalityTest n ⟨nr2, none, fd, true⟩ ρ2)).isSome = true) ∧
    (n.natAbs % 2 = 1 ∧ 5 ≤ n.natAbs ∧ n.natAbs < 19 →
      verdictOf (primalityTest n ⟨nr, some [2, 3, 5, 7, 11, 13, 17], fd, false⟩ ρ) =
        none ∧
      (verdictOf (primalityTest n ⟨nr2, none, fd, true⟩ ρ2)).isSome = true) ∧
    (n.natAbs % 2 = 1 ∧ 19 ≤ n.natAbs →
      ∃ ctx, getReductionContext n.natAbs = .ok ctx ∧
        (verdictOf (primalityTest n ⟨nr, some [2, 3, 5, 7, 11, 13, 17], fd, false⟩
          ρ)).isSome = true ∧
        (verdictOf (primalityTest n ⟨nr2, none, fd, true⟩ ρ2)).isSome = true ∧
        (verdictOf (primalityTest n ⟨nr, some [2, 3, 5, 7, 11, 13, 17], fd, false⟩ ρ)
            = some true ↔
          verdictOf (primalityTest n ⟨nr2, none, fd, true⟩ ρ2) = some true ∧
          ∀ b ∈ List.drop (smallDeterminismBases n.natAbs).length
              ([2, 3, 5, 7, 11, 13, 17] : List Nat),
            millerRabinRound n.natAbs ctx (montgomeryReduce 1 ctx)
              (montgomeryReduce (n.natAbs - 1) ctx) (twoMultiplicity (n.natAbs - 1))
              ((n.natAbs - 1) >>> twoMultiplicity (n.natAbs - 1)) fd b = .pass)) := by
  refine ⟨?_, ?_, ?_⟩
  · intro h
    rw [verdictOf_primalityTest, verdictOf_primalityTest,
      primalityTestCore_special n.natAbs _ ρ h, primalityTestCore_special n.natAbs _ ρ2 h]
    simp [Except.toOption]
  · rintro ⟨hodd, h5, hlt19⟩
    obtain ⟨ctx, hctx⟩ := getReductionContext_isOk n.natAbs hodd
    constructor
    · obtain ⟨b, hbbad, hval⟩ := validateBases_error_of_bad [2, 3, 5, 7, 11, 13, 17]
        ((n.natAbs - 1 : Nat) : Int) 17 (by decide) (by
          rintro ⟨-, hlt⟩
          have hle : ((n.natAbs - 1 : Nat) : Int) ≤ 17 := by
            exact_mod_cast (show n.natAbs - 1 ≤ 17 by omega)
          omega)
      rw [verdictOf_primalityTest]
      rw [primalityTestCore_odd_eq n.natAbs (by omega) hodd _ ρ ctx hctx]
      rw [show (if (⟨nr, some [2, 3, 5, 7, 11, 13, 17], fd, false⟩ :
          PrimalityOptions).small_determinism_mode ∧ n.natAbs < 341550071728321 then
          some (smallDeterminismBases n.natAbs)
        else (⟨nr, some [2, 3, 5, 7, 11, 13, 17], fd, false⟩ :
          PrimalityOptions).bases) = some [2, 3, 5, 7, 11, 13, 17] from by simp]
      rw [hval]
      simp [Except.toOption]
    · have htab : smallDeterminismBases n.natAbs = [2] := by
        unfold smallDeterminismBases
        rw [if_pos (show n.natAbs < 2047 by omega)]
      have hvalB : validateBases (some [2]) ((n.natAbs - 1 : Nat) : Int) =
          .ok (some [2]) := by
        apply validateBases_ok_of_good
        intro b hb
        have h2lt : (2 : Int) < ((n.natAbs - 1 : Nat) : Int) := by
          exact_mod_cast (show 2 < n.natAbs - 1 by omega)
        fin_cases hb
        exact ⟨by decide, h2lt⟩
      rw [verdictOf_primalityTest]
      rw [primalityTestCore_odd_eq n.natAbs (by omega) hodd _ ρ2 ctx hctx]
      rw [show (if (⟨nr2, none, fd, true⟩ :
          PrimalityOptions).small_determinism_mode ∧ n.natAbs < 341550071728321 then
          some (smallDeterminismBases n.natAbs)
        else (⟨nr2, none, fd, true⟩ : PrimalityOptions).bases) = some [2] from by
          simp [htab, show n.natAbs < 341550071728321 from by omega]]
      rw [hvalB]
      simp [Except.toOption]
  · rintro ⟨hodd, h19⟩
    obtain ⟨ctx, hctx⟩ := getReductionContext_isOk n.natAbs hodd
    have h18 : (18 : Int) ≤ ((n.natAbs - 1 : Nat) : Int) := by
      exact_mod_cast (show (18 : Nat) ≤ n.natAbs - 1 by omega)
    have hvalA : validateBases (some [2, 3, 5, 7, 11, 13, 17])
        ((n.natAbs - 1 : Nat) : Int) = .ok (some [2, 3, 5, 7, 11, 13, 17]) := by
      apply validateBases_ok_of_good
      intro b hb
      fin_cases hb <;> exact ⟨by decide, by omega⟩
    have hvalB : validateBases (some (smallDeterminismBases n.natAbs))
        ((n.natAbs - 1 : Nat) : Int) = .ok (some (smallDeterminismBases n.natAbs)) := by
      apply validateBases_ok_of_good
      intro b hb
      have h2 := smallDeterminismBases_subset n.natAbs b hb
      fin_cases h2 <;> exact ⟨by decide, by omega⟩
    have hA : verdictOf (primalityTest n ⟨nr, some [2, 3, 5, 7, 11, 13, 17], fd, false⟩ ρ)
        = some ((runRounds n.natAbs ctx (montgomeryReduce 1 ctx)
          (montgomeryReduce (n.natAbs - 1) ctx) (twoMultiplicity (n.natAbs - 1))
          ((n.natAbs - 1) >>> twoMultiplicity (n.natAbs - 1)) fd
          ([2, 3, 5, 7, 11, 13, 17] : List Nat)).2.probablePrime) := by
      rw [verdictOf_primalityTest]
      rw [primalityTestCore_odd_eq n.natAbs (by omega) hodd _ ρ ctx hctx]
      rw [show (if (⟨nr, some [2, 3, 5, 7, 11, 13, 17], fd, false⟩ :
          PrimalityOptions).small_determinism_mode ∧ n.natAbs < 341550071728321 then
          some (smallDeterminismBases n.natAbs)
        else (⟨nr, some [2, 3, 5, 7, 11, 13, 17], fd, false⟩ :
          PrimalityOptions).bases) = some [2, 3, 5, 7, 11, 13, 17] from by simp]
      rw [hvalA]
      simp only [Except.toOption, Option.map]
      rw [show ([2, 3, 5, 7, 11, 13, 17] : List Int).map Int.toNat
        = ([2, 3, 5, 7, 11, 13, 17] : List Nat) from by decide]
    have hM : verdictOf (primalityTest n ⟨nr2, none, fd, true⟩ ρ2) =
        some ((runRounds n.natAbs ctx (montgomeryReduce 1 ctx)
          (montgomeryReduce (n.natAbs - 1) ctx) (twoMultiplicity (n.natAbs - 1))
          ((n.natAbs - 1) >>> twoMultiplicity (n.natAbs - 1)) fd
          ((smallDeterminismBases n.natAbs).map Int.toNat)).2.probablePrime) := by
      rw [verdictOf_primalityTest]
      rw [primalityTestCore_odd_eq n.natAbs (by omega) hodd _ ρ2 ctx hctx]
      rw [show (if (⟨nr2, none, fd, true⟩ :
          PrimalityOptions).small_determinism_mode ∧ n.natAbs < 341550071728321 then
          some (smallDeterminismBases n.natAbs)
        else (⟨nr2, none, fd, true⟩ : PrimalityOptions).bases) =
          some (smallDeterminismBases n.natAbs) from by
          simp [show n.natAbs < 341550071728321 from by omega]]
      rw [hvalB]
      simp only [Except.toOption, Option.map]
    refine ⟨ctx, hctx, ?_, ?_, ?_⟩
    · rw [hA]; rfl
    · rw [hM]; rfl
    · rw [hA, hM]
      simp only [Option.some.injEq]
      rw [runRounds_true_iff, runRounds_true_iff]
      constructor
      · intro hall
        refine List.forall_mem_append.mp ?_
        rw [smallDeterminismBases_append_drop n.natAbs]
        exact hall
      · rintro ⟨h1, h2⟩
        have h3 := List.forall_mem_append.mpr ⟨h1, h2⟩
        rw [smallDeterminismBases_append_drop n.natAbs] at h3
        exact h3

theorem twoMultiplicity_ten : twoMultiplicity 10 = 1 := by
  simp [twoMultiplicity]

theorem millerRabinRound_eleven_two :
    millerRabinRound 11 ⟨11, 4, 16, 9, 3⟩ 5 6 1 5 true 2 = .pass := by
  have hg : ugcd 11 2 = 1 := by rw [ugcd_eq_gcd]; decide
  have hbl5 : bitLength 5 = 3 := by simp [bitLength, Nat.log2]
  rw [millerRabinRound, if_neg (by simp [hg])]
  simp only [montgomeryPow, hbl5]
  decide

/-- C7 counterexample: for `n = 11`, supplying
`bases = [2, 3, 5, 7, 11, 13, 17]` does not reproduce the
`small_determinism_mode` verdict: the explicit-bases run fails with a range
error (11 is outside `[2, n-2] = [2, 9]`) while the deterministic-mode run
resolves with `probablePrime = true`. -/
theorem deterministic_mode_equivalence_counterexample :
    primalityTest 11 ⟨none, some [2, 3, 5, 7, 11, 13, 17], true, false⟩ (fun _ => 2) =
      .error (.invalidBaseRange 11) ∧
    primalityTest 11 ⟨none, none, true, true⟩ (fun _ => 2) =
      .ok ⟨11, true, none, none⟩ := by
  constructor
  · have hcore : primalityTestCore 11
        ⟨none, some [2, 3, 5, 7, 11, 13, 17], true, false⟩ (fun _ => 2) =
        ([TraceEvent.contextCreated, TraceEvent.montgomeryReduced 5,
          TraceEvent.montgomeryReduced 6],
         .error (.invalidBaseRange 11)) := by
      rw [primalityTestCore_odd_eq 11 (by omega) (by omega) _ _ ⟨11, 4, 16, 9, 3⟩
        getReductionContext_eleven]
      rw [show (if (⟨none, some [2, 3, 5, 7, 11, 13, 17], true, false⟩ :
          PrimalityOptions).small_determinism_mode ∧ (11 : Nat) < 341550071728321 then
          some (smallDeterminismBases 11)
        else (⟨none, some [2, 3, 5, 7, 11, 13, 17], true, false⟩ :
          PrimalityOptions).bases) = some [2, 3, 5, 7, 11, 13, 17] from by simp]
      rw [show validateBases (some [2, 3, 5, 7, 11, 13, 17]) (((11 : Nat) - 1 : Nat) : Int)
        = .error (.invalidBaseRange 11) from by decide]
      rw [show montgomeryReduce 1 ⟨11, 4, 16, 9, 3⟩ = 5 from by decide]
      rw [show montgomeryReduce (11 - 1) ⟨11, 4, 16, 9, 3⟩ = 6 from by decide]
    rw [primalityTest_eq]
    have habs : Int.natAbs 11 = 11 := rfl
    rw [habs, hcore]
    rfl
  · have hrr : runRounds 11 ⟨11, 4, 16, 9, 3⟩ 5 6 1 5 true [2] =
        ([TraceEvent.roundFinished 2], ⟨true, none, none⟩) := by
      rw [runRounds, millerRabinRound_eleven_two]
      rfl
    have hcore : primalityTestCore 11 ⟨none, none, true, true⟩ (fun _ => 2) =
        ([TraceEvent.contextCreated, TraceEvent.montgomeryReduced 5,
          TraceEvent.montgomeryReduced 6, TraceEvent.roundFinished 2],
         .ok ⟨true, none, none⟩) := by
      rw [primalityTestCore_odd_eq 11 (by omega) (by omega) _ _ ⟨11, 4, 16, 9, 3⟩
        getReductionContext_eleven]
      rw [show (if (⟨none, none, true, true⟩ :
          PrimalityOptions).small_determinism_mode ∧ (11 : Nat) < 341550071728321 then
          some (smallDeterminismBases 11)
        else (⟨none, none, true, true⟩ : PrimalityOptions).bases) = some [2] from by
          simp [show smallDeterminismBases 11 = [2] from by decide]]
      rw [show validateBases (some [2]) (((11 : Nat) - 1 : Nat) : Int)
        = .ok (some [2]) from by decide]
      rw [show montgomeryReduce 1 ⟨11, 4, 16, 9, 3⟩ = 5 from by decide]
      rw [show montgomeryReduce (11 - 1) ⟨11, 4, 16, 9, 3⟩ = 6 from by decide]
      rw [show twoMultiplicity (11 - 1) = 1 from by
        rw [show (11 - 1 : Nat) = 10 from rfl]; exact twoMultiplicity_ten]
      rw [show ((11 - 1 : Nat) >>> 1) = 5 from by decide]
      simp [hrr]
    rw [primalityTest_eq]
    have habs : Int.natAbs 11 = 11 := rfl
    rw [habs, hcore]
    rfl


theorem getReductionContext_twentythree :
    getReductionContext 23 = .ok ⟨23, 5, 32, 18, 7⟩ := by
  have hbl : bitLength 23 = 5 := by simp [bitLength, Nat.log2]
  have hinv : invertPowerOfTwo 5 23 = 18 := rfl
  simp [getReductionContext, hbl, hinv]

theorem millerRabinRound_twentythree_pass :
    ∀ b ∈ ([2, 3, 5, 7, 11, 13, 17] : List Nat),
      millerRabinRound 23 ⟨23, 5, 32, 18, 7⟩ 9 14 1 11 true b = .pass := by
  have hbl11 : bitLength 11 = 4 := by simp [bitLength, Nat.log2]
  intro b hb
  have hg : ugcd 23 b = 1 := by
    rw [ugcd_eq_gcd]
    fin_cases hb <;> decide
  rw [millerRabinRound, if_neg (by simp [hg])]
  simp only [montgomeryPow, hbl11]
  fin_cases hb <;> decide

/-- Witness for the amended C7 at `n = 23` (odd, at least 19): the
explicit-bases run reports `probablePrime = true`, and the characterization
then forces the deterministic-mode run to report `true` as well. -/
theorem deterministic_mode_outcome_characterization_witness :
    (23 : Int).natAbs < 3474749660383 ∧ (23 : Int).natAbs % 2 = 1 ∧
    19 ≤ (23 : Int).natAbs ∧
    verdictOf (primalityTest 23
      ⟨none, some [2, 3, 5, 7, 11, 13, 17], true, false⟩ (fun _ => 2)) = some true ∧
    verdictOf (primalityTest 23 ⟨none, none, true, true⟩
      (fun _ => 2)) = some true := by
  have hA : verdictOf (primalityTest 23
      ⟨none, some [2, 3, 5, 7, 11, 13, 17], true, false⟩ (fun _ => 2)) = some true := by
    rw [verdictOf_primalityTest]
    rw [show (23 : Int).natAbs = 23 from rfl]
    rw [primalityTestCore_odd_eq 23 (by omega) (by omega) _ _ ⟨23, 5, 32, 18, 7⟩
      getReductionContext_twentythree]
    rw [show (if (⟨none, some [2, 3, 5, 7, 11, 13, 17], true, false⟩ :
        PrimalityOptions).small_determinism_mode ∧ (23 : Nat) < 341550071728321 then
        some (smallDeterminismBases 23)
      else (⟨none, some [2, 3, 5, 7, 11, 13, 17], true, false⟩ :
        PrimalityOptions).bases) = some [2, 3, 5, 7, 11, 13, 17] from by simp]
    rw [show validateBases (some [2, 3, 5, 7, 11, 13, 17]) (((23 : Nat) - 1 : Nat) : Int)
      = .ok (some [2, 3, 5, 7, 11, 13, 17]) from by decide]
    simp only [Except.toOption, Option.map]
    rw [show montgomeryReduce 1 ⟨23, 5, 32, 18, 7⟩ = 9 from by decide]
    rw [show montgomeryReduce (23 - 1) ⟨23, 5, 32, 18, 7⟩ = 14 from by decide]
    rw [show twoMultiplicity (23 - 1) = 1 from by simp [twoMultiplicity]]
    rw [show ((23 - 1 : Nat) >>> 1) = 11 from by decide]
    rw [show ([2, 3, 5, 7, 11, 13, 17] : List Int).map Int.toNat
      = ([2, 3, 5, 7, 11, 13, 17] : List Nat) from by decide]
    rw [(runRounds_true_iff 23 ⟨23, 5, 32, 18, 7⟩ 9 14 1 11 true
      [2, 3, 5, 7, 11, 13, 17]).mpr millerRabinRound_twentythree_pass]
  obtain ⟨ctx, hctx, hAs, hMs, hiff⟩ :=
    (deterministic_mode_outcome_characterization 23 none none true (fun _ => 2)
      (fun _ => 2) (by decide)).2.2 ⟨by decide, by decide⟩
  exact ⟨by decide, by decide, by decide, hA, (hiff.mp hA).1⟩

/-! ## Claim C3: validity of reported divisors -/

theorem coprime_rInv (ctx : MontgomeryReductionContext) (F : MontCtxFacts ctx) :
    Nat.gcd ctx.base ctx.rInv = 1 := by
  have hge : 1 ≤ ctx.r * ctx.rInv := by
    have h1 := F.rInv_ge_one
    have h2 : 0 < ctx.r := by have := F.base_lt_r; have := F.three_le; omega
    exact Nat.one_le_iff_ne_zero.mpr (by positivity)
  have hdvd : ctx.base ∣ ctx.r * ctx.rInv - 1 :=
    (Nat.modEq_iff_dvd' hge).mp F.rInv_modeq.symm
  have hg1 : Nat.gcd ctx.base ctx.rInv ∣ ctx.r * ctx.rInv :=
    Dvd.dvd.mul_left (Nat.gcd_dvd_right _ _) ctx.r
  have hg2 : Nat.gcd ctx.base ctx.rInv ∣ ctx.r * ctx.rInv - 1 :=
    dvd_trans (Nat.gcd_dvd_left _ _) hdvd
  have hg3 : Nat.gcd ctx.base ctx.rInv ∣ 1 := by
    have := Nat.dvd_sub' hg1 hg2
    rwa [Nat.sub_sub_self hge] at this
  exact Nat.eq_one_of_dvd_one hg3

theorem invRed_montgomeryReduce_eq (ctx : MontgomeryReductionContext)
    (F : MontCtxFacts ctx) (x : Nat) (hx : x < ctx.base) :
    invMontgomeryReduce (montgomeryReduce x ctx) ctx = x := by
  have hmpos : 0 < ctx.base := by have := F.three_le; omega
  have hmod : invMontgomeryReduce (montgomeryReduce x ctx) ctx ≡ x [MOD ctx.base] := by
    calc invMontgomeryReduce (montgomeryReduce x ctx) ctx
        ≡ montgomeryReduce x ctx * ctx.rInv [MOD ctx.base] := invMontgomeryReduce_modeq _ _
      _ ≡ x * ctx.r * ctx.rInv [MOD ctx.base] := (montgomeryReduce_modeq x ctx F).mul_right _
      _ = x * (ctx.r * ctx.rInv) := by ring
      _ ≡ x * 1 [MOD ctx.base] := Nat.ModEq.mul_left _ F.rInv_modeq
      _ = x := by ring
  have h1 : invMontgomeryReduce (montgomeryReduce x ctx) ctx < ctx.base :=
    invMontgomeryReduce_lt _ ctx hmpos
  calc invMontgomeryReduce (montgomeryReduce x ctx) ctx
      = invMontgomeryReduce (montgomeryReduce x ctx) ctx % ctx.base := (Nat.mod_eq_of_lt h1).symm
    _ = x % ctx.base := hmod
    _ = x := Nat.mod_eq_of_lt hx

theorem invRed_one_eq (ctx : MontgomeryReductionContext) (F : MontCtxFacts ctx) :
    invMontgomeryReduce (montgomeryReduce 1 ctx) ctx = 1 :=
  invRed_montgomeryReduce_eq ctx F 1 (by have := F.three_le; omega)

theorem invRed_inj (ctx : MontgomeryReductionContext) (F : MontCtxFacts ctx)
    (x y : Nat) (hx : x < ctx.base) (hy : y < ctx.base)
    (h : invMontgomeryReduce x ctx = invMontgomeryReduce y ctx) : x = y := by
  have hmodeq : x * ctx.rInv ≡ y * ctx.rInv [MOD ctx.base] := by
    unfold invMontgomeryReduce at h
    exact h
  have hx_y : x ≡ y [MOD ctx.base] :=
    Nat.ModEq.cancel_right_of_coprime (coprime_rInv ctx F) hmodeq
  calc x = x % ctx.base := (Nat.mod_eq_of_lt hx).symm
    _ = y % ctx.base := hx_y
    _ = y := Nat.mod_eq_of_lt hy

theorem mrDivisor_valid (ctx : MontgomeryReductionContext) (F : MontCtxFacts ctx)
    (n : Nat) (hbn : ctx.base = n) (h5 : 5 ≤ n) (x v : Nat)
    (hx : x < n) (hne : x ≠ montgomeryReduce 1 ctx)
    (hcop : Nat.Coprime (invMontgomeryReduce x ctx) n)
    (h : mrDivisor x n ctx true = some v) : 1 < v ∧ v < n ∧ v ∣ n := by
  have hmpos : 0 < ctx.base := by have := F.three_le; omega
  have hφlt : invMontgomeryReduce x ctx < n := by
    rw [← hbn]; exact invMontgomeryReduce_lt x ctx hmpos
  have hφne0 : invMontgomeryReduce x ctx ≠ 0 := by
    intro h0
    have : Nat.gcd 0 n = 1 := h0 ▸ hcop
    rw [Nat.gcd_zero_left] at this
    omega
  have hφne1 : invMontgomeryReduce x ctx ≠ 1 := by
    intro h1
    apply hne
    apply invRed_inj ctx F x (montgomeryReduce 1 ctx) (by rw [hbn]; exact hx)
      (montgomeryReduce_lt 1 ctx hmpos)
    rw [h1, invRed_one_eq ctx F]
  unfold mrDivisor at h
  rw [if_pos rfl] at h
  have harg1 : 1 ≤ invMontgomeryReduce x ctx - 1 := by omega
  have harg2 : invMontgomeryReduce x ctx - 1 ≤ n - 2 := by omega
  by_cases hone : ugcd (invMontgomeryReduce x ctx - 1) n = 1
  · rw [if_pos hone] at h
    cases h
  · rw [if_neg hone] at h
    injection h with hv
    rw [ugcd_eq_gcd] at hv hone
    have hdvdn : Nat.gcd (invMontgomeryReduce x ctx - 1) n ∣ n := Nat.gcd_dvd_right _ _
    have hle : Nat.gcd (invMontgomeryReduce x ctx - 1) n ≤ invMontgomeryReduce x ctx - 1 :=
      Nat.le_of_dvd (by omega) (Nat.gcd_dvd_left _ _)
    have hpos : 0 < Nat.gcd (invMontgomeryReduce x ctx - 1) n :=
      Nat.gcd_pos_of_pos_left _ (by omega)
    refine ⟨by omega, by omega, hv ▸ hdvdn⟩

theorem mrInnerLoop_divisor_valid (n : Nat) (ctx : MontgomeryReductionContext)
    (F : MontCtxFacts ctx) (hbn : ctx.base = n) (h5 : 5 ≤ n)
    (nSubR base : Nat) :
    ∀ fuel x, x < n → x ≠ montgomeryReduce 1 ctx →
      Nat.Coprime (invMontgomeryReduce x ctx) n →
      ∀ w dv v,
        mrInnerLoop n ctx (montgomeryReduce 1 ctx) nSubR true base x fuel = .fail w dv →
        dv = some v → 1 < v ∧ v < n ∧ v ∣ n := by
  intro fuel
  induction fuel with
  | zero =>
      intro x hx hne hcop w dv v h hdv
      rw [mrInnerLoop] at h
      injection h with hw hdvv
      subst hdvv
      exact mrDivisor_valid ctx F n hbn h5 x v hx hne hcop hdv
  | succ f ih =>
      intro x hx hne hcop w dv v h hdv
      rw [mrInnerLoop] at h
      by_cases hy1 : montgomerySqr x ctx = montgomeryReduce 1 ctx
      · rw [if_pos hy1] at h
        injection h with hw hdvv
        subst hdvv
        exact mrDivisor_valid ctx F n hbn h5 x v hx hne hcop hdv
      · rw [if_neg hy1] at h
        by_cases hy2 : montgomerySqr x ctx = nSubR
        · rw [if_pos hy2] at h
          cases h
        · rw [if_neg hy2] at h
          have hxb : x < ctx.base := by rw [hbn]; exact hx
          have hylt : montgomerySqr x ctx < n := by
            rw [montgomerySqr, ← hbn]
            exact (montgomeryMul_correct ctx F x x hxb hxb).1
          have hycop : Nat.Coprime (invMontgomeryReduce (montgomerySqr x ctx) ctx) n := by
            have hsq : invMontgomeryReduce (montgomerySqr x ctx) ctx ≡
                invMontgomeryReduce x ctx * invMontgomeryReduce x ctx [MOD n] := by
              rw [montgomerySqr, ← hbn]
              exact invRed_montgomeryMul ctx F x x hxb hxb
            have := Nat.ModEq.gcd_eq hsq
            unfold Nat.Coprime
            rw [this]
            exact hcop.mul hcop
          exact ih (montgomerySqr x ctx) hylt hy1 hycop w dv v h hdv

theorem millerRabinRound_divisor_valid (n : Nat) (ctx : MontgomeryReductionContext)
    (F : MontCtxFacts ctx) (hbn : ctx.base = n) (h5 : 5 ≤ n)
    (nSubR r d base : Nat) (hb2 : 2 ≤ base) (hbn2 : base ≤ n - 2) :
    ∀ w dv v,
      millerRabinRound n ctx (montgomeryReduce 1 ctx) nSubR r d true base = .fail w dv →
      dv = some v → 1 < v ∧ v < n ∧ v ∣ n := by
  intro w dv v h hdv
  rw [millerRabinRound] at h
  by_cases hg : ugcd n base = 1
  · rw [if_neg (by simp [hg])] at h
    by_cases hpass : montgomeryPow (montgomeryReduce base ctx) d ctx = montgomeryReduce 1 ctx ∨
        montgomeryPow (montgomeryReduce base ctx) d ctx = nSubR
    · rw [if_pos hpass] at h
      cases h
    · rw [if_neg hpass] at h
      push_neg at hpass
      have hbase_lt : base < ctx.base := by omega
      have hx0lt : montgomeryPow (montgomeryReduce base ctx) d ctx < n := by
        rw [← hbn]
        exact montgomeryPow_lt ctx F (montgomeryReduce base ctx) d
          (montgomeryReduce_lt base ctx (by have := F.three_le; omega))
      have hx0cop : Nat.Coprime
          (invMontgomeryReduce (montgomeryPow (montgomeryReduce base ctx) d ctx) ctx) n := by
        have hφ : invMontgomeryReduce (montgomeryPow (montgomeryReduce base ctx) d ctx) ctx
            = invMontgomeryReduce (montgomeryReduce base ctx) ctx ^ d % ctx.base :=
          invRed_montgomeryPow ctx F (montgomeryReduce base ctx) d
            (montgomeryReduce_lt base ctx (by have := F.three_le; omega))
        rw [hφ, invRed_montgomeryReduce_eq ctx F base hbase_lt, hbn]
        have hcb : Nat.Coprime base n := by
          unfold Nat.Coprime
          rw [Nat.gcd_comm]
          rw [ugcd_eq_gcd] at hg
          exact hg
        have hpow : Nat.Coprime (base ^ d) n := hcb.pow_left d
        unfold Nat.Coprime
        rw [Nat.ModEq.gcd_eq (Nat.mod_modEq (base ^ d) n)]
        exact hpow
      exact mrInnerLoop_divisor_valid n ctx F hbn h5 nSubR base r
        (montgomeryPow (montgomeryReduce base ctx) d ctx) hx0lt hpass.1 hx0cop w dv v h hdv
  · rw [if_pos (by exact ⟨rfl, hg⟩)] at h
    injection h with hw hdvv
    subst hdvv
    injection hdv with hveq
    rw [ugcd_eq_gcd] at hveq hg
    have hdvdn : Nat.gcd n base ∣ n := Nat.gcd_dvd_left _ _
    have hle : Nat.gcd n base ≤ base := Nat.le_of_dvd (by omega) (Nat.gcd_dvd_right _ _)
    have hpos : 0 < Nat.gcd n base := Nat.gcd_pos_of_pos_left _ (by omega)
    exact ⟨by omega, by omega, hveq ▸ hdvdn⟩

theorem mrInnerLoop_fd_false (n : Nat) (ctx : MontgomeryReductionContext)
    (oneR nSubR base : Nat) :
    ∀ fuel x w dv, mrInnerLoop n ctx oneR nSubR false base x fuel = .fail w dv →
      dv = none := by
  intro fuel
  induction fuel with
  | zero =>
      intro x w dv h
      rw [mrInnerLoop] at h
      injection h with hw hdvv
      rw [← hdvv]
      rfl
  | succ f ih =>
      intro x w dv h
      rw [mrInnerLoop] at h
      by_cases hy1 : montgomerySqr x ctx = oneR
      · rw [if_pos hy1] at h
        injection h with hw hdvv
        rw [← hdvv]
        rfl
      · rw [if_neg hy1] at h
        by_cases hy2 : montgomerySqr x ctx = nSubR
        · rw [if_pos hy2] at h
          cases h
        · rw [if_neg hy2] at h
          exact ih (montgomerySqr x ctx) w dv h

theorem millerRabinRound_fd_false (n : Nat) (ctx : MontgomeryReductionContext)
    (oneR nSubR r d base : Nat) (w : Nat) (dv : Option Nat)
    (h : millerRabinRound n ctx oneR nSubR r d false base = .fail w dv) : dv = none := by
  rw [millerRabinRound] at h
  rw [if_neg (by simp)] at h
  by_cases hpass : montgomeryPow (montgomeryReduce base ctx) d ctx = oneR ∨
      montgomeryPow (montgomeryReduce base ctx) d ctx = nSubR
  · rw [if_pos hpass] at h
    cases h
  · rw [if_neg hpass] at h
    exact mrInnerLoop_fd_false n ctx oneR nSubR base r _ w dv h

theorem runRounds_divisor_valid (n : Nat) (ctx : MontgomeryReductionContext)
    (F : MontCtxFacts ctx) (hbn : ctx.base = n) (h5 : 5 ≤ n)
    (nSubR r d : Nat) (fd : Bool) :
    ∀ l : List Nat, (∀ b ∈ l, 2 ≤ b ∧ b ≤ n - 2) →
      ∀ v, (runRounds n ctx (montgomeryReduce 1 ctx) nSubR r d fd l).2.divisor = some v →
        1 < v ∧ v < n ∧ v ∣ n := by
  intro l
  induction l with
  | nil =>
      intro hl v h
      cases h
  | cons base rest ih =>
      intro hl v h
      rw [runRounds] at h
      cases hm : millerRabinRound n ctx (montgomeryReduce 1 ctx) nSubR r d fd base with
      | pass =>
          rw [hm] at h
          exact ih (fun b hb => hl b (List.mem_cons_of_mem base hb)) v h
      | fail w dv =>
          rw [hm] at h
          simp only at h
          cases fd with
          | false =>
              rw [millerRabinRound_fd_false n ctx _ nSubR r d base w dv hm] at h
              cases h
          | true =>
              have hb := hl base (List.mem_cons_self base rest)
              exact millerRabinRound_divisor_valid n ctx F hbn h5 nSubR r d base
                hb.1 hb.2 w dv v hm h

/-- C3: whenever `primalityTest` on an odd `n >= 5` is run with
`findDivisor` enabled (the accepted random draws lying in `[2, n-2]` as the
rejection loop guarantees) and returns a result whose `divisor` field is
non-null, that divisor strictly divides `n`: `n mod divisor = 0` and
`1 < divisor < n`. -/
theorem divisor_divides_input (n : Nat) (hodd : n % 2 = 1) (h5 : 5 ≤ n)
    (opts : PrimalityOptions) (ρ : Nat → Nat) (hfd : opts.findDivisor = true)
    (hρ : ∀ k, 2 ≤ ρ k ∧ ρ k ≤ n - 2)
    (res : PrimalityResult) (v : Nat)
    (hres : primalityTest (n : Int) opts ρ = .ok res) (hdv : res.divisor = some v) :
    1 < v ∧ v < n ∧ v ∣ n := by
  obtain ⟨ctx, hctx⟩ := getReductionContext_isOk n hodd
  obtain ⟨hbn, F⟩ := montCtxFacts n (by omega) ctx hctx
  rw [primalityTest_eq, Int.natAbs_ofNat] at hres
  rw [primalityTestCore_odd_eq n (by omega) hodd opts ρ ctx hctx] at hres
  cases hval : validateBases
      (if opts.small_determinism_mode ∧ n < 341550071728321 then
        some (smallDeterminismBases n)
      else opts.bases) ((n - 1 : Nat) : Int) with
  | error e =>
      rw [hval] at hres
      cases hres
  | ok vb =>
      rw [hval] at hres
      cases vb with
      | none =>
          simp only [Except.map, Except.ok.injEq] at hres
          have hdvr := congrArg PrimalityResult.divisor hres
          simp only at hdvr
          rw [hdv, hfd] at hdvr
          refine runRounds_divisor_valid n ctx F hbn h5 (montgomeryReduce (n - 1) ctx)
            (twoMultiplicity (n - 1)) ((n - 1) >>> twoMultiplicity (n - 1)) true _
            ?_ v hdvr
          intro b hb
          obtain ⟨k, _, hbeq⟩ := List.mem_map.mp hb
          rw [← hbeq]
          exact hρ k
      | some vbl =>
          simp only [Except.map, Except.ok.injEq] at hres
          have hdvr := congrArg PrimalityResult.divisor hres
          simp only at hdvr
          rw [hdv, hfd] at hdvr
          refine runRounds_divisor_valid n ctx F hbn h5 (montgomeryReduce (n - 1) ctx)
            (twoMultiplicity (n - 1)) ((n - 1) >>> twoMultiplicity (n - 1)) true _
            ?_ v hdvr
          intro b hb
          obtain ⟨bI, hbI, hbeq⟩ := List.mem_map.mp hb
          cases hBexpr : (if opts.small_determinism_mode ∧ n < 341550071728321 then
              some (smallDeterminismBases n)
            else opts.bases) with
          | none =>
              rw [hBexpr] at hval
              cases hval
          | some bs =>
              rw [hBexpr] at hval
              obtain ⟨hvb, hall⟩ := validateBases_ok_some bs _ _ hval
              injection hvb with hvb2
              rw [← hvb2] at hall
              have hbIb := hall bI hbI
              have hcast : ((n - 1 : Nat) : Int) = (n : Int) - 1 := by
                have h1 : (1 : Nat) ≤ n := by omega
                push_cast [h1]
                ring
              rw [hcast] at hbIb
              omega

theorem getReductionContext_fifteen :
    getReductionContext 15 = .ok ⟨15, 4, 16, 1, 15⟩ := by
  have hbl : bitLength 15 = 4 := by simp [bitLength, Nat.log2]
  have hinv : invertPowerOfTwo 4 15 = 1 := rfl
  simp [getReductionContext, hbl, hinv]

theorem millerRabinRound_fifteen_two :
    millerRabinRound 15 ⟨15, 4, 16, 1, 15⟩ 1 14 1 7 true 2 = .fail 2 (some 3) := by
  have hg : ugcd 15 2 = 1 := by rw [ugcd_eq_gcd]; decide
  have hbl7 : bitLength 7 = 3 := by simp [bitLength, Nat.log2]
  have hdvr : mrDivisor 4 15 ⟨15, 4, 16, 1, 15⟩ true = some 3 := by
    rw [mrDivisor, if_pos rfl]
    rw [show invMontgomeryReduce 4 ⟨15, 4, 16, 1, 15⟩ - 1 = 3 from by decide]
    rw [show ugcd 3 15 = 3 from by rw [ugcd_eq_gcd]; decide]
    rfl
  have hinner : mrInnerLoop 15 ⟨15, 4, 16, 1, 15⟩ 1 14 true 2 8 1 = .fail 2 (some 3) := by
    rw [mrInnerLoop]
    rw [show montgomerySqr 8 ⟨15, 4, 16, 1, 15⟩ = 4 from by decide]
    rw [if_neg (by decide), if_neg (by decide)]
    rw [mrInnerLoop, hdvr]
  rw [millerRabinRound, if_neg (by simp [hg])]
  rw [show montgomeryReduce 2 ⟨15, 4, 16, 1, 15⟩ = 2 from by decide]
  simp only [show montgomeryPow 2 7 ⟨15, 4, 16, 1, 15⟩ = 8 from by
    rw [montgomeryPow, hbl7]; decide]
  rw [if_neg (by decide)]
  exact hinner

theorem primalityTest_fifteen :
    primalityTest ((15 : Nat) : Int) ⟨none, some [2], true, false⟩ (fun _ => 2) =
      .ok ⟨15, false, some 2, some 3⟩ := by
  have hrr : runRounds 15 ⟨15, 4, 16, 1, 15⟩ 1 14 1 7 true [2] =
      ([TraceEvent.roundFinished 2], ⟨false, some 2, some 3⟩) := by
    rw [runRounds, millerRabinRound_fifteen_two]
  have hcore : primalityTestCore 15 ⟨none, some [2], true, false⟩ (fun _ => 2) =
      ([TraceEvent.contextCreated, TraceEvent.montgomeryReduced 1,
        TraceEvent.montgomeryReduced 14, TraceEvent.roundFinished 2],
       .ok ⟨false, some 2, some 3⟩) := by
    rw [primalityTestCore_odd_eq 15 (by omega) (by omega) _ _ ⟨15, 4, 16, 1, 15⟩
      getReductionContext_fifteen]
    rw [show (if (⟨none, some [2], true, false⟩ :
        PrimalityOptions).small_determinism_mode ∧ (15 : Nat) < 341550071728321 then
        some (smallDeterminismBases 15)
      else (⟨none, some [2], true, false⟩ : PrimalityOptions).bases) = some [2] from by simp]
    rw [show validateBases (some [2]) (((15 : Nat) - 1 : Nat) : Int)
      = .ok (some [2]) from by decide]
    rw [show montgomeryReduce 1 ⟨15, 4, 16, 1, 15⟩ = 1 from by decide]
    rw [show montgomeryReduce (15 - 1) ⟨15, 4, 16, 1, 15⟩ = 14 from by decide]
    rw [show twoMultiplicity (15 - 1) = 1 from by simp [twoMultiplicity]]
    rw [show ((15 - 1 : Nat) >>> 1) = 7 from by decide]
    simp [hrr]
  rw [primalityTest_eq]
  have habs : Int.natAbs ((15 : Nat) : Int) = 15 := rfl
  rw [habs, hcore]
  rfl

/-- Witness for C3 at `n = 15`, `bases = [2]`: the returned divisor 3
divides 15 and lies strictly between 1 and 15. -/
theorem divisor_divides_input_witness :
    primalityTest ((15 : Nat) : Int) ⟨none, some [2], true, false⟩ (fun _ => 2) =
      .ok ⟨15, false, some 2, some 3⟩ ∧
    (1 < 3 ∧ 3 < 15 ∧ 3 ∣ 15) :=
  ⟨primalityTest_fifteen,
    divisor_divides_input 15 (by decide) (by decide) ⟨none, some [2], true, false⟩
      (fun _ => 2) rfl (fun _ => by simp) ⟨15, false, some 2, some 3⟩ 3
      primalityTest_fifteen rfl⟩
